import Mathlib

/-!
Verification development for the Arabic-aware knowledge-base lookup engine
of the voice-bot repository (`app.py`): the normalizer `normalize_arabic`,
the loader `load_medications_file` (its post-parse shape handling), the
index builder `build_med_index_from_dict`, and the three-tier matcher
`find_med_in_text` built on `difflib.get_close_matches`.

Strings are modelled as lists of Unicode code points (`List Nat`), which is
what Python `str` is.  JSON values (the payloads handled by the loader and
builder) are modelled by the inductive `JVal`.  Python code that can raise
on some inputs is modelled with `Option`, `none` standing for a raised
exception.
-/

namespace VoiceBot

/-- Code points of a Lean string literal, used to write concrete inputs. -/
def strCP (s : String) : List Nat := s.data.map Char.toNat

/-- JSON values as produced by `json.load`: objects are ordered association
lists (Python dicts preserve insertion order), keys are strings. -/
inductive JVal where
  | jstr : List Nat → JVal
  | jobj : List (List Nat × JVal) → JVal
  | jarr : List JVal → JVal
  | jnum : Int → JVal
  | jbool : Bool → JVal
  | jnull : JVal

/-- Python dict keys must be hashable; the loader only ever stores strings,
numbers or `True` as keys (a list or dict name raises `TypeError`). -/
inductive JKey where
  | kstr : List Nat → JKey
  | knum : Int → JKey
  | kbool : Bool → JKey
deriving DecidableEq

/-- Python truthiness of a JSON value (`bool(v)`). -/
def truthy : JVal → Bool
  | .jstr s => !s.isEmpty
  | .jobj f => !f.isEmpty
  | .jarr l => !l.isEmpty
  | .jnum n => decide (n ≠ 0)
  | .jbool b => b
  | .jnull => false

/-- `d.get(k)` on a dict modelled as an association list: first binding wins
(keys are unique in dicts built by `dictInsert`). -/
def jget (k : List Nat) : List (List Nat × JVal) → Option JVal
  | [] => none
  | (k', v) :: rest => if k' = k then some v else jget k rest

/-- `d[k] = v` on a Python dict: replaces the value in place if the key is
present (keeping its original position), otherwise appends. -/
def dictInsert {α β : Type} [DecidableEq α] (k : α) (v : β) :
    List (α × β) → List (α × β)
  | [] => [(k, v)]
  | (k', v') :: rest =>
      if k' = k then (k', v) :: rest else (k', v') :: dictInsert k v rest

/-- `list(dict.fromkeys(l))`: de-duplication keeping the first occurrence,
in order.  `seen` accumulates the keys already emitted. -/
def dedupFirstAux {α : Type} [DecidableEq α] (seen : List α) : List α → List α
  | [] => []
  | x :: xs =>
      if x ∈ seen then dedupFirstAux seen xs
      else x :: dedupFirstAux (x :: seen) xs

/-- `list(dict.fromkeys(l))`. -/
def dedupFirst {α : Type} [DecidableEq α] (l : List α) : List α :=
  dedupFirstAux [] l

/-! ## Character classes

All classes are stated on code points.  `IsPySpace` is the CPython
whitespace class, used both by `str.strip`/`str.split` and by `\s` in
`re` string patterns (both are `Py_UNICODE_ISSPACE`). -/

/-- CPython Unicode whitespace (`str.isspace`, `\s`). -/
def IsPySpaceP (n : Nat) : Prop :=
  (9 ≤ n ∧ n ≤ 13) ∨ n = 32 ∨ (28 ≤ n ∧ n ≤ 31) ∨ n = 0x85 ∨ n = 0xA0 ∨
  n = 0x1680 ∨ (0x2000 ≤ n ∧ n ≤ 0x200A) ∨ n = 0x2028 ∨ n = 0x2029 ∨
  n = 0x202F ∨ n = 0x205F ∨ n = 0x3000

instance (n : Nat) : Decidable (IsPySpaceP n) := by unfold IsPySpaceP; infer_instance

def isPySpace (n : Nat) : Bool := decide (IsPySpaceP n)

/-- `str.lower` restricted to its ASCII action: the inputs of this system
are Arabic (caseless) plus ASCII, for which CPython lowercasing is exactly
the `A`-`Z` shift. -/
def lowerChar (n : Nat) : Nat := if 65 ≤ n ∧ n ≤ 90 then n + 32 else n

/-- The regex `ARABIC_DIACRITICS`:
`[ؐ-ًؚ-ٰٟۖ-ۭ]`. -/
def IsDiaP (n : Nat) : Prop :=
  (0x610 ≤ n ∧ n ≤ 0x61A) ∨ (0x64B ≤ n ∧ n ≤ 0x65F) ∨ n = 0x670 ∨
  (0x6D6 ≤ n ∧ n ≤ 0x6ED)

instance (n : Nat) : Decidable (IsDiaP n) := by unfold IsDiaP; infer_instance

def isDia (n : Nat) : Bool := decide (IsDiaP n)

/-- `re.sub(r"[آأإٰ]", "ا", ·)` as a character map
(U+0622, U+0623, U+0625, U+0670 to U+0627). -/
def foldAlef (n : Nat) : Nat :=
  if n = 0x622 ∨ n = 0x623 ∨ n = 0x625 ∨ n = 0x670 then 0x627 else n

/-- `re.sub(r"ى", "ي", ·)` (U+0649 to U+064A). -/
def foldY (n : Nat) : Nat := if n = 0x649 then 0x64A else n

/-- `re.sub(r"ؤ", "و", ·)` (U+0624 to U+0648). -/
def foldW (n : Nat) : Nat := if n = 0x624 then 0x648 else n

/-- `re.sub(r"ئ", "ي", ·)` (U+0626 to U+064A). -/
def foldHamzaY (n : Nat) : Nat := if n = 0x626 then 0x64A else n

/-- Python `\w` on the ASCII range (alphanumerics and underscore).  The
full `\w` class is Unicode-alphanumeric; the Arabic letters this system
works with are admitted by the separate `؀-ۿ` alternative of the
keep regex, so the ASCII action is the relevant one here. -/
def IsWordCharP (n : Nat) : Prop :=
  (48 ≤ n ∧ n ≤ 57) ∨ (65 ≤ n ∧ n ≤ 90) ∨ (97 ≤ n ∧ n ≤ 122) ∨ n = 95

instance (n : Nat) : Decidable (IsWordCharP n) := by unfold IsWordCharP; infer_instance

/-- The Arabic block `؀-ۿ` of the keep regex. -/
def IsArabicBlockP (n : Nat) : Prop := 0x600 ≤ n ∧ n ≤ 0x6FF

instance (n : Nat) : Decidable (IsArabicBlockP n) := by
  unfold IsArabicBlockP; infer_instance

/-- `re.sub(r"[^\w\s؀-ۿ]", " ", ·)` as a character map. -/
def keepChar (n : Nat) : Nat :=
  if IsWordCharP n ∨ IsPySpaceP n ∨ IsArabicBlockP n then n else 32

/-! ## Whitespace handling -/

/-- `str.strip()`: drop Python whitespace from both ends. -/
def pyStrip (s : List Nat) : List Nat :=
  (((s.dropWhile (fun c => isPySpace c)).reverse.dropWhile
      (fun c => isPySpace c))).reverse

/-- Worker for `str.split()` (no separator): `acc` holds the current word
reversed. -/
def pyTokensAux : List Nat → List Nat → List (List Nat)
  | [], acc => if acc = [] then [] else [acc.reverse]
  | c :: rest, acc =>
      if isPySpace c then
        if acc = [] then pyTokensAux rest []
        else acc.reverse :: pyTokensAux rest []
      else pyTokensAux rest (c :: acc)

/-- `str.split()` with no arguments: split on whitespace runs, no empty
tokens. -/
def pySplit (s : List Nat) : List (List Nat) := pyTokensAux s []

/-- Joining tokens with single spaces.  `" ".join(tokens)`. -/
def joinSpace : List (List Nat) → List Nat
  | [] => []
  | [t] => t
  | t :: ts => t ++ 32 :: joinSpace ts

/-! ## The normalizer

`normalize_arabic` from `app.py`, step for step.  The final
`re.sub(r"\s+", " ", text).strip()` is written as
`joinSpace (pySplit text)`: replacing every whitespace run by one space
and then stripping the ends is exactly re-joining the whitespace-separated
words with single spaces. -/

def normalize_arabic (s : List Nat) : List Nat :=
  if s = [] then []
  else
    let t1 := (pyStrip s).map lowerChar
    let t2 := t1.filter (fun c => !(isDia c))
    let t3 := (((t2.map foldAlef).map foldY).map foldW).map foldHamzaY
    let t4 := t3.map keepChar
    joinSpace (pySplit t4)

/-! ## difflib

`SequenceMatcher` with `isjunk=None` and default `autojunk=True`, as used
by `difflib.get_close_matches`. -/

/-- Ascending positions of `c` in a list, offset by `i`. -/
def positionsAux (c : Nat) : List Nat → Nat → List Nat
  | [], _ => []
  | x :: xs, i =>
      if x = c then i :: positionsAux c xs (i + 1) else positionsAux c xs (i + 1)

/-- `b2j[c]` before the autojunk purge: ascending occurrence indices. -/
def positions (b : List Nat) (c : Nat) : List Nat := positionsAux c b 0

/-- The autojunk rule of `__chain_b`: with `len(b) >= 200`, elements with
more than `len(b) // 100 + 1` occurrences are popular and purged. -/
def isPopular (b : List Nat) (c : Nat) : Bool :=
  decide (200 ≤ b.length) && decide (b.length / 100 + 1 < b.count c)

/-- `b2j` after the autojunk purge. -/
def b2j (b : List Nat) (c : Nat) : List Nat :=
  if isPopular b c then [] else positions b c

structure DPBest where
  besti : Nat
  bestj : Nat
  bestsize : Nat

/-- `j2len.get(j, 0)` on the assoc-list representation of the dict. -/
def j2get : List (Nat × Nat) → Nat → Nat
  | [], _ => 0
  | (j', k) :: rest, j => if j' = j then k else j2get rest j

/-- Inner loop of `find_longest_match` over the occurrence indices `js` of
`a[i]` in `b`: builds `newj2len` and updates the best block.  `j - 1` at
`j = 0` is Python `-1`, never a key, hence length `0`. -/
def dpInner (i : Nat) (j2lenOld : List (Nat × Nat)) :
    List Nat → List (Nat × Nat) → DPBest → List (Nat × Nat) × DPBest
  | [], acc, best => (acc, best)
  | j :: js, acc, best =>
      let k := (if j = 0 then 0 else j2get j2lenOld (j - 1)) + 1
      let best' : DPBest :=
        if best.bestsize < k then ⟨i + 1 - k, j + 1 - k, k⟩ else best
      dpInner i j2lenOld js ((j, k) :: acc) best'

/-- Outer loop of `find_longest_match` over `i` in `range(alo, ahi)`.  The
source skips `j < blo` (`continue`) and stops at `j >= bhi` (`break`);
on the ascending occurrence lists this is the filter below. -/
def dpLoop (a b : List Nat) (blo bhi : Nat) :
    List Nat → List (Nat × Nat) → DPBest → DPBest
  | [], _, best => best
  | i :: is, j2len, best =>
      let js := (b2j b (a.getD i 0)).filter
        (fun j => decide (blo ≤ j) && decide (j < bhi))
      let st := dpInner i j2len js [] best
      dpLoop a b blo bhi is st.1 st.2

/-- `a[i] == b[j]`, false when either index is out of range (the source
loops only compare in-range positions). -/
def elemEq (a b : List Nat) (i j : Nat) : Bool :=
  match a.get? i, b.get? j with
  | some x, some y => decide (x = y)
  | _, _ => false

/-- First while-loop after the DP: extend the block backwards over equal
non-junk elements (`bjunk` is empty since `isjunk=None`).  Fueled by the
start index, which strictly decreases. -/
def extendBack (a b : List Nat) (alo blo : Nat) :
    Nat → Nat → Nat → Nat → DPBest
  | 0, bi, bj, bs => ⟨bi, bj, bs⟩
  | fuel + 1, bi, bj, bs =>
      if alo < bi ∧ blo < bj ∧ elemEq a b (bi - 1) (bj - 1) = true then
        extendBack a b alo blo fuel (bi - 1) (bj - 1) (bs + 1)
      else ⟨bi, bj, bs⟩

/-- Second while-loop: extend forwards over equal non-junk elements.
Fueled by `ahi`, an upper bound on the number of steps. -/
def extendFwd (a b : List Nat) (ahi bhi : Nat) :
    Nat → Nat → Nat → Nat → Nat
  | 0, _, _, bs => bs
  | fuel + 1, bi, bj, bs =>
      if bi + bs < ahi ∧ bj + bs < bhi ∧ elemEq a b (bi + bs) (bj + bs) = true then
        extendFwd a b ahi bhi fuel bi bj (bs + 1)
      else bs

/-- `SequenceMatcher.find_longest_match` on `a[alo:ahi]`, `b[blo:bhi]`.
With `isjunk=None` the `bjunk` set is empty, so the two junk-extension
while-loops of the source never fire and are omitted. -/
def findLongestMatch (a b : List Nat) (alo ahi blo bhi : Nat) : DPBest :=
  let d := dpLoop a b blo bhi (List.range' alo (ahi - alo)) [] ⟨alo, blo, 0⟩
  let d2 := extendBack a b alo blo d.besti d.besti d.bestj d.bestsize
  ⟨d2.besti, d2.bestj, extendFwd a b ahi bhi ahi d2.besti d2.bestj d2.bestsize⟩

/-- Total matched size over the recursive block decomposition of
`get_matching_blocks` (the later merging of adjacent blocks preserves the
sum).  Each recursive call is on a strictly smaller index-range sum, so
fuel `(ahi - alo) + (bhi - blo) + 1` at the top level is enough. -/
def matchSumF (a b : List Nat) : Nat → Nat → Nat → Nat → Nat → Nat
  | 0, _, _, _, _ => 0
  | fuel + 1, alo, ahi, blo, bhi =>
      let m := findLongestMatch a b alo ahi blo bhi
      if m.bestsize = 0 then 0
      else
        m.bestsize +
          (if alo < m.besti ∧ blo < m.bestj then
              matchSumF a b fuel alo m.besti blo m.bestj
            else 0) +
          (if m.besti + m.bestsize < ahi ∧ m.bestj + m.bestsize < bhi then
              matchSumF a b fuel (m.besti + m.bestsize) ahi
                (m.bestj + m.bestsize) bhi
            else 0)

/-- `sum(size for _, _, size in s.get_matching_blocks())` for
`set_seq1(a)`, `set_seq2(b)`. -/
def pyMatches (a b : List Nat) : Nat :=
  matchSumF a b (a.length + b.length + 1) 0 a.length 0 b.length

/-- A similarity ratio as an unreduced fraction (numerator, positive
denominator).  CPython computes these as floats; for the string lengths
this system handles, float rounding never crosses the `0.75`/`0.6` cutoffs
or merges distinct small-denominator ratios, so exact rational comparison
(by cross-multiplication) coincides with the float comparisons. -/
abbrev Frac := Nat × Nat

def fracLE (p q : Frac) : Bool := decide (p.1 * q.2 ≤ q.1 * p.2)

def fracLT (p q : Frac) : Bool := decide (p.1 * q.2 < q.1 * p.2)

def fracEQ (p q : Frac) : Bool := decide (p.1 * q.2 = q.1 * p.2)

/-- `ratio()` as `_calculate_ratio(matches, len(a) + len(b))`: `1.0` on two
empty sequences. -/
def pyRatioF (a b : List Nat) : Frac :=
  if a.length + b.length = 0 then (1, 1)
  else (2 * pyMatches a b, a.length + b.length)

/-- `real_quick_ratio`: upper bound used as a cheap pre-filter. -/
def realQuickF (a b : List Nat) : Frac :=
  if a.length + b.length = 0 then (1, 1)
  else (2 * min a.length b.length, a.length + b.length)

/-- `quick_ratio`: multiset-intersection upper bound, the second
pre-filter. -/
def quickF (a b : List Nat) : Frac :=
  if a.length + b.length = 0 then (1, 1)
  else
    (2 * ((dedupFirst a).map (fun c => min (a.count c) (b.count c))).sum,
      a.length + b.length)

/-- The `0.75` cutoff of the token tier. -/
def cut75 : Frac := (3, 4)

/-- The `0.6` cutoff of the whole-string tier. -/
def cut60 : Frac := (3, 5)

/-- The acceptance test of `get_close_matches`:
`real_quick_ratio() >= cutoff and quick_ratio() >= cutoff and
ratio() >= cutoff` with `set_seq1(x)`, `set_seq2(w)`. -/
def cutoffOK (x w : List Nat) (cut : Frac) : Bool :=
  fracLE cut (realQuickF x w) && fracLE cut (quickF x w) &&
    fracLE cut (pyRatioF x w)

/-- Python string `<`: lexicographic on code points. -/
def pyStrLt : List Nat → List Nat → Bool
  | [], [] => false
  | [], _ :: _ => true
  | _ :: _, [] => false
  | x :: xs, y :: ys => decide (x < y) || (decide (x = y) && pyStrLt xs ys)

/-- Candidate selection of `get_close_matches(word, possibilities, n=1)`:
`heapq.nlargest(1, result)` on `(ratio, string)` pairs keeps the largest
pair, ranking ratio first, then Python string order, the earliest
candidate surviving exact ties. -/
def bestAux (w : List Nat) (cut : Frac) :
    List (List Nat) → Option (Frac × List Nat) → Option (Frac × List Nat)
  | [], best => best
  | x :: xs, best =>
      if cutoffOK x w cut then
        let r := pyRatioF x w
        match best with
        | none => bestAux w cut xs (some (r, x))
        | some (rb, xb) =>
            if fracLT rb r || (fracEQ rb r && pyStrLt xb x) then
              bestAux w cut xs (some (r, x))
            else bestAux w cut xs (some (rb, xb))
      else bestAux w cut xs best

/-- `difflib.get_close_matches(word, possibilities, n=1, cutoff)`,
returning the single match if any. -/
def getCloseMatches1 (w : List Nat) (poss : List (List Nat)) (cut : Frac) :
    Option (List Nat) :=
  (bestAux w cut poss none).map Prod.snd

/-! ## Index entries and the matcher -/

/-- One entry of `med_index`: `{"key": name, "norms": [...], "raw": info}`. -/
structure Entry where
  key : List Nat
  norms : List (List Nat)
  raw : JVal

/-- `p` is a prefix of `s`. -/
def isSubPre : List Nat → List Nat → Bool
  | [], _ => true
  | _ :: _, [] => false
  | p :: ps, c :: cs => decide (p = c) && isSubPre ps cs

/-- Python substring test `p in s`. -/
def isSubL (p : List Nat) : List Nat → Bool
  | [] => isSubPre p []
  | c :: t => isSubPre p (c :: t) || isSubL p t

/-- Tier 1 of `find_med_in_text`: first entry with a truthy norm that is a
substring of the normalized question. -/
def scanT1 (qn : List Nat) : List Entry → Option (List Nat × JVal)
  | [] => none
  | e :: rest =>
      if e.norms.any (fun n => !n.isEmpty && isSubL n qn) then
        some (e.key, e.raw)
      else scanT1 qn rest

/-- `for entry in med_index: if matched_norm in entry["norms"]`. -/
def ownerScan (m : List Nat) : List Entry → Option (List Nat × JVal)
  | [] => none
  | e :: rest => if m ∈ e.norms then some (e.key, e.raw) else ownerScan m rest

/-- Tier 2 of `find_med_in_text`: per-token fuzzy search over the pooled
norms; when a token has a close match with no owning entry, the token loop
continues (the source falls through to the next token). -/
def scanT2 (pool : List (List Nat)) (index : List Entry) :
    List (List Nat) → Option (List Nat × JVal)
  | [] => none
  | t :: ts =>
      match getCloseMatches1 t pool cut75 with
      | none => scanT2 pool index ts
      | some m =>
          match ownerScan m index with
          | some kr => some kr
          | none => scanT2 pool index ts

/-- Result of `find_med_in_text`: a `(key, raw)` pair or `(None, None)`. -/
inductive FindRes where
  | found : List Nat → JVal → FindRes
  | nomatch : FindRes

/-- Tier 3 owner search: `if matched_norm == entry["norms"][0]` indexes
`norms` unguarded, so an entry with empty `norms` raises `IndexError`,
modelled by `none`. -/
def scanT3 (m : List Nat) : List Entry → Option FindRes
  | [] => some .nomatch
  | e :: rest =>
      match e.norms with
      | [] => none
      | n0 :: _ => if n0 = m then some (.found e.key e.raw) else scanT3 m rest

/-- `med_names_norm`: all norms pooled in index order and de-duplicated. -/
def poolOf (index : List Entry) : List (List Nat) :=
  dedupFirst ((index.map Entry.norms).flatten)

/-- `med_name_list`: the primary norm of every entry with non-empty
`norms` (`[e["norms"][0] for e in med_index if e["norms"]]`). -/
def primariesOf (index : List Entry) : List (List Nat) :=
  index.filterMap (fun e => e.norms.head?)

/-- `find_med_in_text(text)` over an explicit index (`med_index` in the
source is the module-level index built once at startup).  The outer `none`
models a raised exception; `some .nomatch` is `return None, None`. -/
def find_med_in_text (text : List Nat) (index : List Entry) : Option FindRes :=
  let qn := normalize_arabic text
  match scanT1 qn index with
  | some kr => some (.found kr.1 kr.2)
  | none =>
      match scanT2 (poolOf index) index (pySplit qn) with
      | some kr => some (.found kr.1 kr.2)
      | none =>
          match getCloseMatches1 qn (primariesOf index) cut60 with
          | none => some .nomatch
          | some m => scanT3 m index

/-- Comparable shape of a matcher outcome (the payload is dropped: `JVal`
carries no decidable equality). -/
inductive FindShape where
  | crash : FindShape
  | nomat : FindShape
  | foundKey : List Nat → FindShape
deriving DecidableEq

def shapeOf : Option FindRes → FindShape
  | none => .crash
  | some .nomatch => .nomat
  | some (.found k _) => .foundKey k

def isObjB : JVal → Bool
  | .jobj _ => true
  | _ => false

/-! ## Index builder -/

/-- `normalize_arabic` applied to an arbitrary JSON value: a falsy value
returns `""` through the `if not text` guard, a truthy non-string raises
`AttributeError` at `.strip()`. -/
def normalizeJ : JVal → Option (List Nat)
  | .jstr s => some (normalize_arabic s)
  | v => if truthy v then none else some []

def kAliases : List Nat := strCP "aliases"
def kAlias : List Nat := strCP "alias"
def kAliasAr : List Nat := strCP "أسماء_أخرى"

/-- Python `x or y`: `x` when truthy (absent `get` results are `None`,
falsy). -/
def orElseTruthy (v : Option JVal) (w : JVal) : JVal :=
  match v with
  | some x => if truthy x then x else w
  | none => w

/-- `info.get("aliases") or info.get("alias") or info.get("أسماء_أخرى")
or []`. -/
def aliasChain (f : List (List Nat × JVal)) : JVal :=
  orElseTruthy (jget kAliases f)
    (orElseTruthy (jget kAlias f) (orElseTruthy (jget kAliasAr f) (.jarr [])))

/-- The alias iteration: a string is wrapped as a one-element list first;
iterating a dict yields its keys; iterating a number, boolean or `None`
raises `TypeError`. -/
def aliasItems : JVal → Option (List JVal)
  | .jstr s => some [.jstr s]
  | .jarr l => some l
  | .jobj f => some (f.map (fun kv => JVal.jstr kv.1))
  | .jnum _ => none
  | .jbool _ => none
  | .jnull => none

/-- Sequencing a `for` loop whose body can raise, collecting results. -/
def mapMO {α β : Type} (f : α → Option β) : List α → Option (List β)
  | [] => some []
  | x :: xs =>
      match f x with
      | none => none
      | some y =>
          match mapMO f xs with
          | none => none
          | some ys => some (y :: ys)

/-- A `for` loop threading a state, whose body can raise. -/
def foldlO {σ α : Type} (f : σ → α → Option σ) : σ → List α → Option σ
  | s, [] => some s
  | s, x :: xs =>
      match f s x with
      | none => none
      | some s' => foldlO f s' xs

/-- One iteration of the `build_med_index_from_dict` loop, with the
per-entry `dict.fromkeys` de-duplication of the second loop applied
(identical per entry). -/
def buildEntry (name : List Nat) (info : JVal) : Option Entry :=
  let n0 := normalize_arabic name
  match info with
  | .jobj f =>
      match aliasItems (aliasChain f) with
      | none => none
      | some items =>
          match mapMO normalizeJ items with
          | none => none
          | some ns => some ⟨name, dedupFirst (n0 :: ns), .jobj f⟩
  | _ => some ⟨name, dedupFirst [n0], info⟩

/-- `build_med_index_from_dict(meds)`; `none` models a raised exception
from alias handling. -/
def build_med_index_from_dict (meds : List (List Nat × JVal)) :
    Option (List Entry) :=
  mapMO (fun kv => buildEntry kv.1 kv.2) meds

/-! ## Loader -/

def descKey : List Nat := strCP "description"
def rawKey : List Nat := strCP "raw"
def nameK1 : List Nat := strCP "name"
def nameK2 : List Nat := strCP "اسم"
def nameK3 : List Nat := strCP "الاسم"
def nameKeys : List (List Nat) := [nameK1, nameK2, nameK3]

/-- `item.get("name") or item.get("اسم") or item.get("الاسم")`, kept only
when truthy (`if name:`). -/
def nameChain (f : List (List Nat × JVal)) : Option JVal :=
  let v := orElseTruthy (jget nameK1 f)
    (orElseTruthy (jget nameK2 f) (orElseTruthy (jget nameK3 f) .jnull))
  if truthy v then some v else none

/-- A derived name used as a dict key: strings, numbers and booleans are
hashable; a list or dict name would raise `TypeError` at
`meds[name] = entry` (`None` is hashable but never truthy, hence never a
name). -/
def toKey : JVal → Option JKey
  | .jstr s => some (.kstr s)
  | .jnum n => some (.knum n)
  | .jbool b => some (.kbool b)
  | _ => none

/-- The dict input shape: one `data.items()` iteration. -/
def dictStep (meds : List (JKey × JVal)) (kv : List Nat × JVal) :
    List (JKey × JVal) :=
  dictInsert (JKey.kstr kv.1)
    (match kv.2 with
     | .jstr s => JVal.jobj [(descKey, .jstr s)]
     | .jobj f => .jobj f
     | v => .jobj [(rawKey, v)])
    meds

/-- The list input shape: one item.  Non-dict items and multi-key dicts
without a derivable name are skipped (the source logs a warning). -/
def listStep (meds : List (JKey × JVal)) (item : JVal) :
    Option (List (JKey × JVal)) :=
  match item with
  | .jobj fields =>
      match nameChain fields with
      | some nv =>
          match toKey nv with
          | none => none
          | some k =>
              some (dictInsert k
                (JVal.jobj (fields.filter (fun kv => !(decide (kv.1 ∈ nameKeys)))))
                meds)
      | none =>
          match fields with
          | [(nm, .jobj g)] => some (dictInsert (JKey.kstr nm) (.jobj g) meds)
          | [(nm, v)] =>
              some (dictInsert (JKey.kstr nm) (.jobj [(descKey, v)]) meds)
          | _ => some meds
  | _ => some meds

/-- The shape-handling core of `load_medications_file`, applied to the
value returned by `json.load` (file access and JSON parsing are external
collaborators; their failures return `{}` upstream of this logic).  An
unsupported top-level shape returns `{}` after logging.  `none` models a
raised `TypeError` from an unhashable derived name. -/
def load_medications_data : JVal → Option (List (JKey × JVal))
  | .jobj entries => some (entries.foldl dictStep [])
  | .jarr items => foldlO listStep [] items
  | _ => some []

/-- Keys of a loader result as the plain strings `build_med_index_from_dict`
normalizes; `none` when some key is not a string (a non-string key would
make the builder raise inside `normalize_arabic`). -/
def stringKeyed : List (JKey × JVal) → Option (List (List Nat × JVal))
  | [] => some []
  | (.kstr s, v) :: rest => (stringKeyed rest).map (fun r => (s, v) :: r)
  | _ => none

/-! ## Derived definitions used by the statements and proofs -/

/-- `meds.get(k)` on a loader result. -/
def kget (k : JKey) : List (JKey × JVal) → Option JVal
  | [] => none
  | (k', v) :: rest => if k' = k then some v else kget k rest

/-- Whether an entry satisfies the Tier-1 condition for a normalized query:
some truthy norm is a substring. -/
def tier1HitB (qn : List Nat) (e : Entry) : Bool :=
  e.norms.any (fun n => !n.isEmpty && isSubL n qn)

/-- The character pipeline of `normalize_arabic` without the initial
`strip` and the final whitespace collapse. -/
def mapAll (s : List Nat) : List Nat :=
  (((((s.map lowerChar).filter (fun c => !(isDia c))).map foldAlef).map
      foldY).map foldW).map foldHamzaY |>.map keepChar

/-- `normalize_arabic` with the initial `strip` dropped (it is absorbed by
the final collapse; proved below). -/
def normCore (s : List Nat) : List Nat := joinSpace (pySplit (mapAll s))

/-- Characters fixed by every stage of the pipeline: the non-space output
alphabet of `normalize_arabic`. -/
def StableChar (c : Nat) : Prop :=
  lowerChar c = c ∧ isDia c = false ∧ foldAlef c = c ∧ foldY c = c ∧
    foldW c = c ∧ foldHamzaY c = c ∧ keepChar c = c

instance (c : Nat) : Decidable (StableChar c) := by unfold StableChar; infer_instance

/-- The alef-variant fold on the three (non-combining) alef letters. -/
def foldAlef3 (n : Nat) : Nat :=
  if n = 0x622 ∨ n = 0x623 ∨ n = 0x625 then 0x627 else n

/-- The object fields of a JSON value, if it is an object. -/
def isObjOpt : JVal → Option (List (List Nat × JVal))
  | .jobj f => some f
  | _ => none

/-- The normalized aliases of a payload, in order: each alias found under
the recognized alias-field chain of a mapping payload, normalized (the
builder's raising cases are `none`); a non-mapping payload has no alias
field and contributes no aliases. -/
def aliasNormsOf : JVal → Option (List (List Nat))
  | .jobj f =>
      match aliasItems (aliasChain f) with
      | none => none
      | some items => mapMO normalizeJ items
  | _ => some []

/-! # Lemmas

## De-duplication -/

theorem mem_dedupFirstAux_notMem {α : Type} [DecidableEq α] (l : List α) :
    ∀ (seen : List α) (x : α), x ∈ dedupFirstAux seen l → x ∉ seen := by
  induction l with
  | nil => intro seen x hx; simp [dedupFirstAux] at hx
  | cons y ys ih =>
      intro seen x hx
      simp only [dedupFirstAux] at hx
      split at hx
      · exact ih seen x hx
      · rcases List.mem_cons.mp hx with h1 | h2
        · subst h1; assumption
        · intro hs
          exact ih (y :: seen) x h2 (List.mem_cons_of_mem y hs)

theorem dedupFirstAux_nodup {α : Type} [DecidableEq α] (l : List α) :
    ∀ seen : List α, (dedupFirstAux seen l).Nodup := by
  induction l with
  | nil => intro seen; simp [dedupFirstAux]
  | cons y ys ih =>
      intro seen
      simp only [dedupFirstAux]
      split
      · exact ih seen
      · refine List.nodup_cons.mpr ⟨?_, ih (y :: seen)⟩
        intro hy
        exact mem_dedupFirstAux_notMem ys (y :: seen) y hy
          (List.mem_cons_self y seen)

theorem dedupFirst_nodup {α : Type} [DecidableEq α] (l : List α) :
    (dedupFirst l).Nodup := dedupFirstAux_nodup l []

theorem dedupFirst_cons_head {α : Type} [DecidableEq α] (x : α) (xs : List α) :
    (dedupFirst (x :: xs)).head? = some x := by
  simp [dedupFirst, dedupFirstAux]

theorem dedupFirst_cons_ne_nil {α : Type} [DecidableEq α] (x : α)
    (xs : List α) : dedupFirst (x :: xs) ≠ [] := by
  simp [dedupFirst, dedupFirstAux]

theorem dedupFirstAux_sublist {α : Type} [DecidableEq α] (l : List α) :
    ∀ seen : List α, (dedupFirstAux seen l).Sublist l := by
  induction l with
  | nil => intro seen; simp [dedupFirstAux]
  | cons x xs ih =>
      intro seen
      simp only [dedupFirstAux]
      split
      · exact (ih seen).cons x
      · exact (ih (x :: seen)).cons₂ x

theorem dedupFirst_sublist {α : Type} [DecidableEq α] (l : List α) :
    (dedupFirst l).Sublist l := dedupFirstAux_sublist l []

theorem mem_dedupFirstAux {α : Type} [DecidableEq α] (l : List α) :
    ∀ (seen : List α) (x : α),
      x ∈ dedupFirstAux seen l ↔ x ∈ l ∧ x ∉ seen := by
  induction l with
  | nil => intro seen x; simp [dedupFirstAux]
  | cons y ys ih =>
      intro seen x
      simp only [dedupFirstAux]
      split
      · rename_i hy
        rw [ih seen x]
        constructor
        · exact fun h => ⟨List.mem_cons_of_mem y h.1, h.2⟩
        · intro h
          rcases List.mem_cons.mp h.1 with h1 | h1
          · subst h1; exact absurd hy h.2
          · exact ⟨h1, h.2⟩
      · rename_i hy
        rw [List.mem_cons, ih (y :: seen) x]
        constructor
        · intro h
          rcases h with h1 | ⟨h1, h2⟩
          · subst h1; exact ⟨List.mem_cons_self _ _, hy⟩
          · exact ⟨List.mem_cons_of_mem y h1,
              fun hs => h2 (List.mem_cons_of_mem y hs)⟩
        · intro h
          obtain ⟨h1, h2⟩ := h
          rcases List.mem_cons.mp h1 with h3 | h3
          · exact Or.inl h3
          · by_cases hxy : x = y
            · exact Or.inl hxy
            · refine Or.inr ⟨h3, fun hs => ?_⟩
              rcases List.mem_cons.mp hs with h4 | h4
              · exact hxy h4
              · exact h2 h4

theorem mem_dedupFirst {α : Type} [DecidableEq α] (l : List α) (x : α) :
    x ∈ dedupFirst l ↔ x ∈ l := by
  simp [dedupFirst, mem_dedupFirstAux]

/-! ## Dict insertion -/

theorem mem_dictInsert {α β : Type} [DecidableEq α] (k : α) (v : β) :
    ∀ (m : List (α × β)) (x : α × β), x ∈ dictInsert k v m →
      x.2 = v ∨ x ∈ m := by
  intro m
  induction m with
  | nil =>
      intro x hx
      simp only [dictInsert, List.mem_singleton] at hx
      subst hx; exact Or.inl rfl
  | cons p rest ih =>
      intro x hx
      obtain ⟨k', v'⟩ := p
      simp only [dictInsert] at hx
      split at hx
      · rcases List.mem_cons.mp hx with h1 | h2
        · subst h1; exact Or.inl rfl
        · exact Or.inr (List.mem_cons_of_mem _ h2)
      · rcases List.mem_cons.mp hx with h1 | h2
        · subst h1; exact Or.inr (List.mem_cons_self _ _)
        · rcases ih x h2 with h | h
          · exact Or.inl h
          · exact Or.inr (List.mem_cons_of_mem _ h)

theorem kget_dictInsert_self (k : JKey) (v : JVal) :
    ∀ m, kget k (dictInsert k v m) = some v := by
  intro m
  induction m with
  | nil => simp [dictInsert, kget]
  | cons p rest ih =>
      obtain ⟨k', v'⟩ := p
      by_cases h : k' = k
      · subst h; simp [dictInsert, kget]
      · simp [dictInsert, kget, h, ih]

theorem kget_dictInsert_ne (k k' : JKey) (v : JVal) (h : k' ≠ k) :
    ∀ m, kget k' (dictInsert k v m) = kget k' m := by
  intro m
  induction m with
  | nil =>
      simp only [dictInsert, kget]
      rw [if_neg (Ne.symm h)]
  | cons p rest ih =>
      obtain ⟨k0, v0⟩ := p
      by_cases h0 : k0 = k
      · subst h0
        simp only [dictInsert, if_pos rfl, kget]
        simp only [if_neg (Ne.symm h)]
      · simp only [dictInsert, if_neg h0, kget]
        by_cases h1 : k0 = k'
        · simp only [if_pos h1]
        · simp only [if_neg h1]
          exact ih

/-! ## Option-monad loops -/

theorem mapMO_mem {α β : Type} (f : α → Option β) :
    ∀ (l : List α) (l' : List β), mapMO f l = some l' →
      ∀ y ∈ l', ∃ x ∈ l, f x = some y := by
  intro l
  induction l with
  | nil =>
      intro l' h y hy
      simp only [mapMO, Option.some.injEq] at h
      subst h; simp at hy
  | cons x xs ih =>
      intro l' h y hy
      simp only [mapMO] at h
      cases hfx : f x with
      | none => rw [hfx] at h; cases h
      | some y0 =>
          rw [hfx] at h
          cases hrest : mapMO f xs with
          | none => rw [hrest] at h; cases h
          | some ys =>
              rw [hrest] at h
              injection h with h
              subst h
              rcases List.mem_cons.mp hy with h1 | h2
              · subst h1; exact ⟨x, List.mem_cons_self _ _, hfx⟩
              · obtain ⟨x', hx', hfx'⟩ := ih ys hrest y h2
                exact ⟨x', List.mem_cons_of_mem _ hx', hfx'⟩

theorem foldlO_induction {σ α : Type} (f : σ → α → Option σ) (P : σ → Prop)
    (hf : ∀ s x s', P s → f s x = some s' → P s') :
    ∀ (l : List α) (s s' : σ), P s → foldlO f s l = some s' → P s' := by
  intro l
  induction l with
  | nil =>
      intro s s' hs h
      simp only [foldlO, Option.some.injEq] at h
      subst h; exact hs
  | cons x xs ih =>
      intro s s' hs h
      simp only [foldlO] at h
      cases hfx : f s x with
      | none => rw [hfx] at h; cases h
      | some s1 => rw [hfx] at h; exact ih s1 s' (hf s x s1 hs hfx) h

/-! ## Scan lemmas for the three tiers -/

theorem scanT1_eq_none (qn : List Nat) :
    ∀ idx, (∀ e ∈ idx, tier1HitB qn e = false) → scanT1 qn idx = none := by
  intro idx
  induction idx with
  | nil => intro _; rfl
  | cons e rest ih =>
      intro h
      have he : (e.norms.any fun n => !n.isEmpty && isSubL n qn) = false :=
        h e (List.mem_cons_self _ _)
      simp only [scanT1, he, Bool.false_eq_true, if_false]
      exact ih fun e' h' => h e' (List.mem_cons_of_mem _ h')

theorem scanT1_first (qn : List Nat) :
    ∀ (pre : List Entry) (e : Entry) (post : List Entry),
      (∀ e' ∈ pre, tier1HitB qn e' = false) → tier1HitB qn e = true →
      scanT1 qn (pre ++ e :: post) = some (e.key, e.raw) := by
  intro pre
  induction pre with
  | nil =>
      intro e post _ he
      have he' : (e.norms.any fun n => !n.isEmpty && isSubL n qn) = true := he
      simp only [List.nil_append, scanT1, he', if_true]
  | cons e0 pres ih =>
      intro e post hpre he
      have h0 : (e0.norms.any fun n => !n.isEmpty && isSubL n qn) = false :=
        hpre e0 (List.mem_cons_self _ _)
      simp only [List.cons_append, scanT1, h0, Bool.false_eq_true, if_false]
      exact ih e post (fun e' h' => hpre e' (List.mem_cons_of_mem _ h')) he

theorem ownerScan_first (m : List Nat) :
    ∀ (pre : List Entry) (e : Entry) (post : List Entry),
      (∀ e' ∈ pre, m ∉ e'.norms) → m ∈ e.norms →
      ownerScan m (pre ++ e :: post) = some (e.key, e.raw) := by
  intro pre
  induction pre with
  | nil =>
      intro e post _ he
      simp only [List.nil_append, ownerScan, if_pos he]
  | cons e0 pres ih =>
      intro e post hpre he
      have h0 : m ∉ e0.norms := hpre e0 (List.mem_cons_self _ _)
      simp only [List.cons_append, ownerScan, if_neg h0]
      exact ih e post (fun e' h' => hpre e' (List.mem_cons_of_mem _ h')) he

theorem scanT2_eq_none (pool : List (List Nat)) (idx : List Entry) :
    ∀ toks, (∀ t ∈ toks, getCloseMatches1 t pool cut75 = none) →
      scanT2 pool idx toks = none := by
  intro toks
  induction toks with
  | nil => intro _; rfl
  | cons t ts ih =>
      intro h
      simp only [scanT2, h t (List.mem_cons_self _ _)]
      exact ih fun t' h' => h t' (List.mem_cons_of_mem _ h')

theorem scanT2_first (pool : List (List Nat)) (idx : List Entry) :
    ∀ (tpre : List (List Nat)) (t : List Nat) (tpost : List (List Nat))
      (m k : List Nat) (r : JVal),
      (∀ t' ∈ tpre, getCloseMatches1 t' pool cut75 = none) →
      getCloseMatches1 t pool cut75 = some m →
      ownerScan m idx = some (k, r) →
      scanT2 pool idx (tpre ++ t :: tpost) = some (k, r) := by
  intro tpre
  induction tpre with
  | nil =>
      intro t tpost m k r _ ht hown
      simp only [List.nil_append, scanT2, ht, hown]
  | cons t0 ts ih =>
      intro t tpost m k r hpre ht hown
      simp only [List.cons_append, scanT2, hpre t0 (List.mem_cons_self _ _)]
      exact ih t tpost m k r
        (fun t' h' => hpre t' (List.mem_cons_of_mem _ h')) ht hown

theorem scanT3_first (m : List Nat) :
    ∀ (pre : List Entry) (e : Entry) (post : List Entry),
      (∀ e' ∈ pre, e'.norms ≠ [] ∧ e'.norms.head? ≠ some m) →
      e.norms.head? = some m →
      scanT3 m (pre ++ e :: post) = some (.found e.key e.raw) := by
  intro pre
  induction pre with
  | nil =>
      intro e post _ he
      cases hn : e.norms with
      | nil => rw [hn] at he; cases he
      | cons n0 ns =>
          rw [hn] at he
          simp only [List.head?] at he
          injection he with he
          simp only [List.nil_append, scanT3, hn, he, if_pos]
  | cons e0 pres ih =>
      intro e post hpre he
      obtain ⟨hne, hh⟩ := hpre e0 (List.mem_cons_self _ _)
      cases hn : e0.norms with
      | nil => exact absurd hn hne
      | cons n0 ns =>
          rw [hn] at hh
          simp only [List.head?, ne_eq, Option.some.injEq] at hh
          simp only [List.cons_append, scanT3, hn, if_neg hh]
          exact ih e post (fun e' h' => hpre e' (List.mem_cons_of_mem _ h')) he

theorem scanT3_total (m : List Nat) :
    ∀ idx, (∀ e ∈ idx, e.norms ≠ []) → scanT3 m idx ≠ none := by
  intro idx
  induction idx with
  | nil => intro _ h; cases h
  | cons e rest ih =>
      intro h
      cases hn : e.norms with
      | nil => exact absurd hn (h e (List.mem_cons_self _ _))
      | cons n0 ns =>
          simp only [scanT3, hn]
          split
          · intro h'; cases h'
          · exact ih fun e' h' => h e' (List.mem_cons_of_mem _ h')

/-! ## get_close_matches lemmas -/

theorem bestAux_const (w : List Nat) (cut : Frac) :
    ∀ (poss : List (List Nat)) (b : Option (Frac × List Nat)),
      (∀ x ∈ poss, cutoffOK x w cut = false) → bestAux w cut poss b = b := by
  intro poss
  induction poss with
  | nil => intro b _; rfl
  | cons x xs ih =>
      intro b h
      simp only [bestAux, h x (List.mem_cons_self _ _), Bool.false_eq_true,
        if_false]
      exact ih b fun x' h' => h x' (List.mem_cons_of_mem _ h')

theorem bestAux_inv (w : List Nat) (cut : Frac) :
    ∀ (poss : List (List Nat)) (b : Option (Frac × List Nat))
      (p : Frac × List Nat), bestAux w cut poss b = some p →
      b = some p ∨ (p.2 ∈ poss ∧ cutoffOK p.2 w cut = true) := by
  intro poss
  induction poss with
  | nil => intro b p h; exact Or.inl h
  | cons x xs ih =>
      intro b p h
      simp only [bestAux] at h
      by_cases hc : cutoffOK x w cut = true
      · rw [if_pos hc] at h
        cases b with
        | none =>
            rcases ih _ p h with h1 | h2
            · injection h1 with h1
              rw [← h1]
              exact Or.inr ⟨List.mem_cons_self _ _, hc⟩
            · exact Or.inr ⟨List.mem_cons_of_mem _ h2.1, h2.2⟩
        | some q =>
            obtain ⟨rb, xb⟩ := q
            dsimp only at h
            by_cases hr : (fracLT rb (pyRatioF x w) ||
                (fracEQ rb (pyRatioF x w) && pyStrLt xb x)) = true
            · rw [if_pos hr] at h
              rcases ih _ p h with h1 | h2
              · injection h1 with h1
                rw [← h1]
                exact Or.inr ⟨List.mem_cons_self _ _, hc⟩
              · exact Or.inr ⟨List.mem_cons_of_mem _ h2.1, h2.2⟩
            · rw [if_neg hr] at h
              rcases ih _ p h with h1 | h2
              · exact Or.inl h1
              · exact Or.inr ⟨List.mem_cons_of_mem _ h2.1, h2.2⟩
      · rw [if_neg hc] at h
        rcases ih _ p h with h1 | h2
        · exact Or.inl h1
        · exact Or.inr ⟨List.mem_cons_of_mem _ h2.1, h2.2⟩

theorem getCloseMatches1_eq_none (w : List Nat) (pool : List (List Nat))
    (cut : Frac) (h : ∀ x ∈ pool, cutoffOK x w cut = false) :
    getCloseMatches1 w pool cut = none := by
  simp [getCloseMatches1, bestAux_const w cut pool none h]

theorem getCloseMatches1_mem (w m : List Nat) (pool : List (List Nat))
    (cut : Frac) (h : getCloseMatches1 w pool cut = some m) :
    m ∈ pool ∧ cutoffOK m w cut = true := by
  simp only [getCloseMatches1, Option.map_eq_some'] at h
  obtain ⟨p, hp, hm⟩ := h
  rcases bestAux_inv w cut pool none p hp with h1 | h2
  · cases h1
  · rw [← hm]; exact h2

theorem cutoffOK_nil_left (t : List Nat) (cut : Frac) (ht : t ≠ [])
    (hc : 0 < cut.1) : cutoffOK ([] : List Nat) t cut = false := by
  have hl : 0 < t.length := List.length_pos.mpr ht
  have h1 : realQuickF ([] : List Nat) t = (0, t.length) := by
    simp only [realQuickF, List.length_nil, Nat.zero_add, Nat.zero_min,
      Nat.mul_zero]
    rw [if_neg (by omega)]
  have hOK : fracLE cut (0, t.length) = false := by
    simp only [fracLE, decide_eq_false_iff_not]
    intro hle
    have := Nat.mul_pos hc hl
    simp only [Nat.zero_mul] at hle
    omega
  simp only [cutoffOK, h1, hOK, Bool.false_and]

theorem cutoffOK_nil_right (p : List Nat) (cut : Frac) (hp : p ≠ [])
    (hc : 0 < cut.1) : cutoffOK p ([] : List Nat) cut = false := by
  have hl : 0 < p.length := List.length_pos.mpr hp
  have h1 : realQuickF p ([] : List Nat) = (0, p.length) := by
    simp only [realQuickF, List.length_nil, Nat.add_zero, Nat.min_zero,
      Nat.mul_zero]
    rw [if_neg (by omega)]
  have hOK : fracLE cut (0, p.length) = false := by
    simp only [fracLE, decide_eq_false_iff_not]
    intro hle
    have := Nat.mul_pos hc hl
    simp only [Nat.zero_mul] at hle
    omega
  simp only [cutoffOK, h1, hOK, Bool.false_and]

theorem getCloseMatches1_ne_nil (w : List Nat) (pool : List (List Nat))
    (cut : Frac) (hw : w ≠ []) (hc : 0 < cut.1) :
    getCloseMatches1 w pool cut ≠ some [] := by
  intro h
  have := (getCloseMatches1_mem w [] pool cut h).2
  rw [cutoffOK_nil_left w cut hw hc] at this
  cases this

theorem getCloseMatches1_nil_query (pool : List (List Nat)) (cut : Frac)
    (hpool : ∀ p ∈ pool, p ≠ []) (hc : 0 < cut.1) :
    getCloseMatches1 ([] : List Nat) pool cut = none :=
  getCloseMatches1_eq_none _ _ _ fun p hp =>
    cutoffOK_nil_right p cut (hpool p hp) hc

/-! ## Tokenizer lemmas -/

theorem pyTokensAux_allWs :
    ∀ q : List Nat, (∀ c ∈ q, isPySpace c = true) →
      ∀ acc, pyTokensAux q acc = if acc = [] then [] else [acc.reverse] := by
  intro q
  induction q with
  | nil => intro _ acc; rfl
  | cons c cs ih =>
      intro hq acc
      have hc : isPySpace c = true := hq c (List.mem_cons_self _ _)
      have ih' := ih fun c' h' => hq c' (List.mem_cons_of_mem _ h')
      simp only [pyTokensAux, hc, if_true]
      by_cases ha : acc = []
      · rw [if_pos ha, if_pos ha, ih' [], if_pos rfl]
      · rw [if_neg ha, if_neg ha, ih' [], if_pos rfl]

theorem pyTokensAux_ws_front :
    ∀ p : List Nat, (∀ c ∈ p, isPySpace c = true) →
      ∀ rest : List Nat, pyTokensAux (p ++ rest) [] = pyTokensAux rest [] := by
  intro p
  induction p with
  | nil => intro _ rest; rfl
  | cons c cs ih =>
      intro hp rest
      have hc : isPySpace c = true := hp c (List.mem_cons_self _ _)
      simp only [List.cons_append, pyTokensAux, hc, if_true, if_pos rfl]
      exact ih (fun c' h' => hp c' (List.mem_cons_of_mem _ h')) rest

theorem pyTokensAux_ws_suffix :
    ∀ s q acc : List Nat, (∀ c ∈ q, isPySpace c = true) →
      pyTokensAux (s ++ q) acc = pyTokensAux s acc := by
  intro s
  induction s with
  | nil =>
      intro q acc hq
      rw [List.nil_append, pyTokensAux_allWs q hq acc]
      rfl
  | cons c cs ih =>
      intro q acc hq
      have h1 := ih q [] hq
      have h2 := ih q (c :: acc) hq
      simp only [List.cons_append, pyTokensAux, List.append_eq, h1, h2]

theorem pyTokensAux_word :
    ∀ t : List Nat, (∀ c ∈ t, isPySpace c = false) →
      ∀ rest acc : List Nat,
        pyTokensAux (t ++ rest) acc = pyTokensAux rest (t.reverse ++ acc) := by
  intro t
  induction t with
  | nil => intro _ rest acc; simp
  | cons c cs ih =>
      intro ht rest acc
      have hc : isPySpace c = false := ht c (List.mem_cons_self _ _)
      simp only [List.cons_append, pyTokensAux, List.append_eq, hc,
        Bool.false_eq_true, if_false]
      rw [ih (fun c' h' => ht c' (List.mem_cons_of_mem _ h')) rest (c :: acc)]
      simp [List.append_assoc]

theorem pyTokensAux_single_word (t : List Nat)
    (ht : ∀ c ∈ t, isPySpace c = false) (hne : t ≠ []) :
    pyTokensAux t [] = [t] := by
  have := pyTokensAux_word t ht [] []
  rw [List.append_nil, List.append_nil] at this
  rw [this]
  have hrev : t.reverse ≠ [] := fun h => hne (by simpa using congrArg List.reverse h)
  simp only [pyTokensAux, if_neg hrev, List.reverse_reverse]

theorem pySplit_joinSpace :
    ∀ toks : List (List Nat),
      (∀ t ∈ toks, t ≠ [] ∧ ∀ c ∈ t, isPySpace c = false) →
      pySplit (joinSpace toks) = toks := by
  intro toks
  induction toks with
  | nil => intro _; rfl
  | cons t ts ih =>
      intro h
      obtain ⟨hne, hwf⟩ := h t (List.mem_cons_self _ _)
      cases ts with
      | nil =>
          show pyTokensAux (joinSpace [t]) [] = [t]
          simp only [joinSpace]
          exact pyTokensAux_single_word t hwf hne
      | cons t2 ts2 =>
          have hrest := ih fun t' h' => h t' (List.mem_cons_of_mem _ h')
          show pyTokensAux (joinSpace (t :: t2 :: ts2)) [] = t :: t2 :: ts2
          simp only [joinSpace]
          rw [pyTokensAux_word t hwf (32 :: joinSpace (t2 :: ts2)) [],
            List.append_nil]
          have h32 : isPySpace 32 = true := rfl
          have hrevne : t.reverse ≠ [] :=
            fun h' => hne (by simpa using congrArg List.reverse h')
          simp only [pyTokensAux, h32, if_true, if_neg hrevne,
            List.reverse_reverse]
          exact congrArg (t :: ·) hrest

theorem pyTokensAux_tokens_prop :
    ∀ s acc : List Nat, (∀ c ∈ acc, isPySpace c = false) →
      ∀ t ∈ pyTokensAux s acc,
        t ≠ [] ∧ ∀ c ∈ t, isPySpace c = false ∧ (c ∈ s ∨ c ∈ acc) := by
  intro s
  induction s with
  | nil =>
      intro acc hacc t ht
      by_cases ha : acc = []
      · subst ha; simp [pyTokensAux] at ht
      · simp only [pyTokensAux, if_neg ha, List.mem_singleton] at ht
        subst ht
        refine ⟨?_, ?_⟩
        · intro h
          exact ha (by simpa using congrArg List.reverse h)
        · intro c hc
          rw [List.mem_reverse] at hc
          exact ⟨hacc c hc, Or.inr hc⟩
  | cons a s' ih =>
      intro acc hacc t ht
      by_cases hws : isPySpace a = true
      · simp only [pyTokensAux] at ht
        rw [if_pos hws] at ht
        by_cases ha : acc = []
        · rw [if_pos ha] at ht
          obtain ⟨hne, hprop⟩ := ih [] (by simp) t ht
          refine ⟨hne, fun c hc => ?_⟩
          obtain ⟨h1, h2⟩ := hprop c hc
          refine ⟨h1, ?_⟩
          rcases h2 with h2 | h2
          · exact Or.inl (List.mem_cons_of_mem _ h2)
          · exact absurd h2 (List.not_mem_nil c)
        · rw [if_neg ha] at ht
          rcases List.mem_cons.mp ht with h1 | h2
          · subst h1
            refine ⟨?_, ?_⟩
            · intro h
              exact ha (by simpa using congrArg List.reverse h)
            · intro c hc
              rw [List.mem_reverse] at hc
              exact ⟨hacc c hc, Or.inr hc⟩
          · obtain ⟨hne, hprop⟩ := ih [] (by simp) t h2
            refine ⟨hne, fun c hc => ?_⟩
            obtain ⟨h1', h2'⟩ := hprop c hc
            refine ⟨h1', ?_⟩
            rcases h2' with h2' | h2'
            · exact Or.inl (List.mem_cons_of_mem _ h2')
            · exact absurd h2' (List.not_mem_nil c)
      · have hwsf : isPySpace a = false := by
          revert hws; cases isPySpace a <;> simp
        simp only [pyTokensAux] at ht
        rw [if_neg hws] at ht
        have hacc' : ∀ c ∈ a :: acc, isPySpace c = false := by
          intro c hc
          rcases List.mem_cons.mp hc with h1 | h2
          · subst h1; exact hwsf
          · exact hacc c h2
        obtain ⟨hne, hprop⟩ := ih (a :: acc) hacc' t ht
        refine ⟨hne, fun c hc => ?_⟩
        obtain ⟨h1, h2⟩ := hprop c hc
        refine ⟨h1, ?_⟩
        rcases h2 with h2 | h2
        · exact Or.inl (List.mem_cons_of_mem _ h2)
        · rcases List.mem_cons.mp h2 with h3 | h3
          · subst h3; exact Or.inl (List.mem_cons_self _ _)
          · exact Or.inr h3

/-! ## Character-level stability -/

theorem lowerChar_idem (c : Nat) : lowerChar (lowerChar c) = lowerChar c := by
  unfold lowerChar
  split_ifs <;> omega

theorem isDia_lowerChar (c : Nat) : isDia (lowerChar c) = isDia c := by
  unfold lowerChar
  split_ifs with h
  · simp only [isDia, decide_eq_decide]
    unfold IsDiaP
    omega
  · rfl

theorem stableChar_of_ws (c : Nat) (h : isPySpace c = true) : StableChar c := by
  have hp : IsPySpaceP c := of_decide_eq_true h
  have hp' := hp
  unfold IsPySpaceP at hp'
  refine ⟨?_, ?_, ?_, ?_, ?_, ?_, ?_⟩
  · unfold lowerChar; rw [if_neg (by omega)]
  · simp only [isDia, decide_eq_false_iff_not]
    unfold IsDiaP
    omega
  · unfold foldAlef; rw [if_neg (by omega)]
  · unfold foldY; rw [if_neg (by omega)]
  · unfold foldW; rw [if_neg (by omega)]
  · unfold foldHamzaY; rw [if_neg (by omega)]
  · unfold keepChar; rw [if_pos (Or.inr (Or.inl hp))]

theorem fold_cases (d : Nat) :
    (foldHamzaY (foldW (foldY (foldAlef d))) = d ∧ foldAlef d = d ∧
      foldY d = d ∧ foldW d = d ∧ foldHamzaY d = d) ∨
    foldHamzaY (foldW (foldY (foldAlef d))) = 0x627 ∨
    foldHamzaY (foldW (foldY (foldAlef d))) = 0x64A ∨
    foldHamzaY (foldW (foldY (foldAlef d))) = 0x648 := by
  unfold foldAlef foldY foldW foldHamzaY
  split_ifs <;> simp_all

theorem stableChar_concrete_alef : StableChar 0x627 := by decide

theorem stableChar_concrete_ya : StableChar 0x64A := by decide

theorem stableChar_concrete_waw : StableChar 0x648 := by decide

theorem stableChar_space : StableChar 32 := by decide

theorem stable_mapAllChar (d : Nat) (h1 : lowerChar d = d)
    (h2 : isDia d = false) :
    StableChar (keepChar (foldHamzaY (foldW (foldY (foldAlef d))))) := by
  rcases fold_cases d with ⟨he, hfa, hfy, hfw, hfh⟩ | he | he | he
  · rw [he]
    unfold keepChar
    split_ifs with hk
    · exact ⟨h1, h2, hfa, hfy, hfw, hfh, by unfold keepChar; rw [if_pos hk]⟩
    · exact stableChar_space
  · rw [he]; decide
  · rw [he]; decide
  · rw [he]; decide

theorem map_fix {α : Type} (f : α → α) :
    ∀ l : List α, (∀ c ∈ l, f c = c) → l.map f = l := by
  intro l
  induction l with
  | nil => intro _; rfl
  | cons x xs ih =>
      intro h
      simp only [List.map_cons, h x (List.mem_cons_self _ _)]
      rw [ih fun c hc => h c (List.mem_cons_of_mem _ hc)]

theorem stable_of_mem_mapAll (s : List Nat) (c : Nat) (h : c ∈ mapAll s) :
    StableChar c := by
  unfold mapAll at h
  rw [List.mem_map] at h
  obtain ⟨c4, h4, rfl⟩ := h
  rw [List.mem_map] at h4
  obtain ⟨c3, h3, rfl⟩ := h4
  rw [List.mem_map] at h3
  obtain ⟨c2, h2, rfl⟩ := h3
  rw [List.mem_map] at h2
  obtain ⟨c1, h1, rfl⟩ := h2
  rw [List.mem_map] at h1
  obtain ⟨c0, h0, rfl⟩ := h1
  rw [List.mem_filter] at h0
  obtain ⟨hmem, hdia⟩ := h0
  rw [List.mem_map] at hmem
  obtain ⟨craw, hcraw, rfl⟩ := hmem
  have hl : lowerChar (lowerChar craw) = lowerChar craw := lowerChar_idem craw
  have hd : isDia (lowerChar craw) = false := by
    revert hdia
    cases isDia (lowerChar craw) <;> simp
  exact stable_mapAllChar (lowerChar craw) hl hd

theorem mapAll_fix (l : List Nat) (h : ∀ c ∈ l, StableChar c) :
    mapAll l = l := by
  unfold mapAll
  rw [map_fix lowerChar l fun c hc => (h c hc).1]
  rw [List.filter_eq_self.mpr (fun c hc => by simp [(h c hc).2.1])]
  rw [map_fix foldAlef l fun c hc => (h c hc).2.2.1]
  rw [map_fix foldY l fun c hc => (h c hc).2.2.2.1]
  rw [map_fix foldW l fun c hc => (h c hc).2.2.2.2.1]
  rw [map_fix foldHamzaY l fun c hc => (h c hc).2.2.2.2.2.1]
  rw [map_fix keepChar l fun c hc => (h c hc).2.2.2.2.2.2]

theorem mapAll_allWs (p : List Nat) (h : ∀ c ∈ p, isPySpace c = true) :
    mapAll p = p :=
  mapAll_fix p fun c hc => stableChar_of_ws c (h c hc)

theorem mapAll_append (a b : List Nat) :
    mapAll (a ++ b) = mapAll a ++ mapAll b := by
  simp [mapAll, List.filter_append]

/-! ## The initial strip is absorbed by the final collapse -/

theorem normalize_eq_normCore (s : List Nat) :
    normalize_arabic s = normCore s := by
  by_cases hs : s = []
  · subst hs; rfl
  · unfold normalize_arabic
    rw [if_neg hs]
    show joinSpace (pySplit (mapAll (pyStrip s))) = normCore s
    unfold normCore
    have hsplit : s = s.takeWhile (fun c => isPySpace c) ++
        s.dropWhile (fun c => isPySpace c) :=
      (List.takeWhile_append_dropWhile _ _).symm
    have husplit : s.dropWhile (fun c => isPySpace c) =
        pyStrip s ++
          ((s.dropWhile (fun c => isPySpace c)).reverse.takeWhile
            (fun c => isPySpace c)).reverse := by
      unfold pyStrip
      conv_lhs =>
        rw [← List.reverse_reverse (s.dropWhile (fun c => isPySpace c))]
      conv_lhs =>
        rw [← List.takeWhile_append_dropWhile (fun c => isPySpace c)
          (s.dropWhile (fun c => isPySpace c)).reverse]
      rw [List.reverse_append]
    have hpws : ∀ c ∈ s.takeWhile (fun c => isPySpace c),
        isPySpace c = true := fun c hc => List.mem_takeWhile_imp hc
    have hqws : ∀ c ∈ ((s.dropWhile (fun c => isPySpace c)).reverse.takeWhile
        (fun c => isPySpace c)).reverse, isPySpace c = true := by
      intro c hc
      rw [List.mem_reverse] at hc
      exact List.mem_takeWhile_imp hc
    conv_rhs => rw [hsplit, husplit]
    rw [mapAll_append, mapAll_append, mapAll_allWs _ hpws,
      mapAll_allWs _ hqws]
    unfold pySplit
    rw [pyTokensAux_ws_front _ hpws _, pyTokensAux_ws_suffix _ _ [] hqws]

theorem mem_joinSpace :
    ∀ (toks : List (List Nat)) (c : Nat), c ∈ joinSpace toks →
      c = 32 ∨ ∃ t ∈ toks, c ∈ t := by
  intro toks
  induction toks with
  | nil => intro c hc; simp [joinSpace] at hc
  | cons t ts ih =>
      intro c hc
      cases ts with
      | nil =>
          right
          exact ⟨t, List.mem_cons_self _ _, hc⟩
      | cons t2 ts2 =>
          simp only [joinSpace] at hc
          rcases List.mem_append.mp hc with h1 | h2
          · exact Or.inr ⟨t, List.mem_cons_self _ _, h1⟩
          · rcases List.mem_cons.mp h2 with h3 | h4
            · exact Or.inl h3
            · rcases ih c h4 with h5 | ⟨t', ht', hc'⟩
              · exact Or.inl h5
              · exact Or.inr ⟨t', List.mem_cons_of_mem _ ht', hc'⟩

/-! ## Diacritic and alef-fold commutation -/

theorem isDia_foldAlef3 (c : Nat) : isDia (foldAlef3 c) = isDia c := by
  unfold foldAlef3
  split_ifs with h
  · simp only [isDia, decide_eq_decide]
    unfold IsDiaP
    omega
  · rfl

theorem lowerChar_foldAlef3 (c : Nat) :
    lowerChar (foldAlef3 c) = foldAlef3 (lowerChar c) := by
  unfold foldAlef3 lowerChar
  split_ifs <;> omega

theorem foldAlef_foldAlef3 (c : Nat) :
    foldAlef (foldAlef3 c) = foldAlef c := by
  unfold foldAlef3 foldAlef
  split_ifs <;> omega

theorem filter_dia_lower (s : List Nat) :
    (s.map lowerChar).filter (fun c => !(isDia c)) =
      (s.filter (fun c => !(isDia c))).map lowerChar := by
  rw [List.filter_map]
  congr 1
  apply List.filter_congr
  intro c _
  simp [Function.comp, isDia_lowerChar c]

theorem mapAll_filter_dia (s : List Nat) :
    mapAll (s.filter (fun c => !(isDia c))) = mapAll s := by
  unfold mapAll
  congr 1
  congr 1
  congr 1
  congr 1
  congr 1
  rw [filter_dia_lower (s.filter (fun c => !(isDia c))),
    filter_dia_lower s]
  congr 1
  rw [List.filter_filter]
  apply List.filter_congr
  intro c _
  simp

theorem mapAll_map_foldAlef3 (s : List Nat) :
    mapAll (s.map foldAlef3) = mapAll s := by
  unfold mapAll
  congr 1
  congr 1
  congr 1
  congr 1
  rw [List.map_map,
    show (lowerChar ∘ foldAlef3) = (foldAlef3 ∘ lowerChar) from
      funext fun c => lowerChar_foldAlef3 c,
    ← List.map_map, List.filter_map, List.map_map,
    show (foldAlef ∘ foldAlef3) = foldAlef from
      funext fun c => foldAlef_foldAlef3 c]
  congr 1
  apply List.filter_congr
  intro c _
  simp [Function.comp, isDia_foldAlef3 c]

theorem normalize_filter_dia (s : List Nat) :
    normalize_arabic (s.filter (fun c => !(isDia c))) = normalize_arabic s := by
  rw [normalize_eq_normCore, normalize_eq_normCore]
  unfold normCore
  rw [mapAll_filter_dia]

theorem normalize_map_foldAlef3 (s : List Nat) :
    normalize_arabic (s.map foldAlef3) = normalize_arabic s := by
  rw [normalize_eq_normCore, normalize_eq_normCore]
  unfold normCore
  rw [mapAll_map_foldAlef3]

/-! ## Matcher and builder helper lemmas -/

theorem tier1HitB_nil_query (e : Entry) : tier1HitB [] e = false := by
  simp only [tier1HitB, List.any_eq_false]
  intro n _
  cases n with
  | nil => simp
  | cons c cs => simp [isSubL, isSubPre]

theorem buildEntry_shape (name : List Nat) (info : JVal) (e : Entry)
    (h : buildEntry name info = some e) :
    ∃ ns : List (List Nat),
      e.key = name ∧ e.raw = info ∧
      e.norms = dedupFirst (normalize_arabic name :: ns) := by
  unfold buildEntry at h
  cases info with
  | jobj f =>
      dsimp only at h
      cases h1 : aliasItems (aliasChain f) with
      | none => rw [h1] at h; cases h
      | some items =>
          rw [h1] at h
          dsimp only at h
          cases h2 : mapMO normalizeJ items with
          | none => rw [h2] at h; cases h
          | some ns =>
              rw [h2] at h
              injection h with h
              subst h
              exact ⟨ns, rfl, rfl, rfl⟩
  | jstr s =>
      dsimp only at h
      injection h with h
      subst h
      exact ⟨[], rfl, rfl, rfl⟩
  | jarr l =>
      dsimp only at h
      injection h with h
      subst h
      exact ⟨[], rfl, rfl, rfl⟩
  | jnum n =>
      dsimp only at h
      injection h with h
      subst h
      exact ⟨[], rfl, rfl, rfl⟩
  | jbool b =>
      dsimp only at h
      injection h with h
      subst h
      exact ⟨[], rfl, rfl, rfl⟩
  | jnull =>
      dsimp only at h
      injection h with h
      subst h
      exact ⟨[], rfl, rfl, rfl⟩

theorem buildEntry_norms (name : List Nat) (info : JVal) (e : Entry)
    (h : buildEntry name info = some e) :
    e.key = name ∧ e.raw = info ∧
      ∃ ans : List (List Nat), aliasNormsOf info = some ans ∧
        e.norms = dedupFirst (normalize_arabic name :: ans) := by
  unfold buildEntry at h
  cases info with
  | jobj f =>
      dsimp only at h
      cases h1 : aliasItems (aliasChain f) with
      | none => rw [h1] at h; cases h
      | some items =>
          rw [h1] at h
          dsimp only at h
          cases h2 : mapMO normalizeJ items with
          | none => rw [h2] at h; cases h
          | some ns =>
              rw [h2] at h
              injection h with h
              subst h
              refine ⟨rfl, rfl, ns, ?_, rfl⟩
              unfold aliasNormsOf
              dsimp only
              rw [h1]
              exact h2
  | jstr s =>
      dsimp only at h
      injection h with h
      subst h
      exact ⟨rfl, rfl, [], rfl, rfl⟩
  | jarr l =>
      dsimp only at h
      injection h with h
      subst h
      exact ⟨rfl, rfl, [], rfl, rfl⟩
  | jnum n =>
      dsimp only at h
      injection h with h
      subst h
      exact ⟨rfl, rfl, [], rfl, rfl⟩
  | jbool b =>
      dsimp only at h
      injection h with h
      subst h
      exact ⟨rfl, rfl, [], rfl, rfl⟩
  | jnull =>
      dsimp only at h
      injection h with h
      subst h
      exact ⟨rfl, rfl, [], rfl, rfl⟩

/-! # Claim theorems -/

/-- C6: `normalize` is idempotent: for every string `s`,
`normalize(normalize(s))` equals `normalize(s)`. -/
theorem claim_C6 (s : List Nat) :
    normalize_arabic (normalize_arabic s) = normalize_arabic s := by
  rw [normalize_eq_normCore s, normalize_eq_normCore (normCore s)]
  have htoks := pyTokensAux_tokens_prop (mapAll s) [] (by simp)
  have hstable : ∀ c ∈ joinSpace (pySplit (mapAll s)), StableChar c := by
    intro c hc
    rcases mem_joinSpace _ c hc with h32 | ⟨t, ht, hct⟩
    · subst h32; exact stableChar_space
    · obtain ⟨_, hprop⟩ := htoks t ht
      obtain ⟨_, hmem⟩ := hprop c hct
      rcases hmem with hmem | hmem
      · exact stable_of_mem_mapAll s c hmem
      · exact absurd hmem (List.not_mem_nil c)
  have h1 : mapAll (normCore s) = normCore s := by
    unfold normCore
    exact mapAll_fix _ hstable
  have h2 : pySplit (normCore s) = pySplit (mapAll s) := by
    unfold normCore
    rw [pySplit_joinSpace (pySplit (mapAll s)) ?_]
    intro t ht
    obtain ⟨hne, hprop⟩ := htoks t ht
    exact ⟨hne, fun c hc => (hprop c hc).1⟩
  show joinSpace (pySplit (mapAll (normCore s))) = normCore s
  rw [h1, h2]
  rfl

/-- C7 counterexample: the superscript alef U+0670 does not fold to the
plain alef U+0627: it is stripped with the diacritics, so normalizing it
yields the empty string, not the alef. -/
theorem claim_C7_counterexample :
    normalize_arabic [0x670] = [] ∧ normalize_arabic [0x627] = [0x627] ∧
      ([] : List Nat) ≠ [0x627] := by
  refine ⟨by decide, by decide, by decide⟩

/-- C7 (amended): normalizing is insensitive to removing or re-inserting
any combination of the listed combining marks (two strings with the same
diacritic-free projection normalize identically), the alef variants
`آ`, `أ`, `إ` fold to `ا` (the superscript alef U+0670 is instead stripped
with the diacritics), and the three concrete spellings of aspirin
normalize identically. -/
theorem claim_C7 :
    (∀ s t : List Nat,
        s.filter (fun c => !(isDia c)) = t.filter (fun c => !(isDia c)) →
        normalize_arabic s = normalize_arabic t) ∧
    (∀ s : List Nat, normalize_arabic (s.map foldAlef3) = normalize_arabic s) ∧
    normalize_arabic (strCP "أسبرين") = normalize_arabic (strCP "اسبرين") ∧
    normalize_arabic (strCP "اسبرين") = normalize_arabic (strCP "إسبرين") := by
  refine ⟨?_, normalize_map_foldAlef3, by decide, by decide⟩
  intro s t h
  rw [← normalize_filter_dia s, ← normalize_filter_dia t, h]

/-- Witness for C7: adding a fatha and a sukun to the aspirin spelling
does not change its normalization. -/
theorem claim_C7_witness :
    (strCP "أَسْبرين").filter (fun c => !(isDia c)) =
      (strCP "أسبرين").filter (fun c => !(isDia c)) ∧
    normalize_arabic (strCP "أَسْبرين") = normalize_arabic (strCP "أسبرين") :=
  ⟨by decide, claim_C7.1 _ _ (by decide)⟩

/-- C1 counterexample: over the index built from the single record whose
key `"!!!"` normalizes to the empty string (its only norm is empty), the
empty query is matched by Tier 3 — both strings are empty, so the ratio is
`1.0` — and `find_match("", index)` returns that entry instead of
no-match. -/
theorem claim_C1_counterexample :
    (build_med_index_from_dict [(strCP "!!!", JVal.jobj [])]).map
        (fun idx => shapeOf (find_med_in_text [] idx)) =
      some (FindShape.foundKey (strCP "!!!")) := by decide

/-- C1 (amended): `find_match("", index)` returns no-match for every index
in which no entry's primary norm is the empty string (every built index
whose keys do not normalize to empty); an entry whose only norm is the
empty string is never selected by Tier 1 for any query, and the fuzzy
candidate search of Tiers 2 and 3 never selects the empty norm for a
non-empty word (tokens are always non-empty, so such an entry can only be
selected when the whole normalized query is itself empty). -/
theorem claim_C1 :
    (∀ idx : List Entry, (∀ e ∈ idx, e.norms.head? ≠ some []) →
        find_med_in_text [] idx = some FindRes.nomatch) ∧
    (∀ (qn : List Nat) (e : Entry), e.norms = [[]] →
        tier1HitB qn e = false) ∧
    (∀ (t : List Nat) (pool : List (List Nat)) (cut : Frac), t ≠ [] →
        0 < cut.1 → getCloseMatches1 t pool cut ≠ some []) := by
  refine ⟨?_, ?_, fun t pool cut ht hc =>
    getCloseMatches1_ne_nil t pool cut ht hc⟩
  · intro idx h
    have hT1 : scanT1 (normalize_arabic []) idx = none :=
      scanT1_eq_none [] idx fun e _ => tier1HitB_nil_query e
    have hT2 : scanT2 (poolOf idx) idx (pySplit (normalize_arabic [])) =
        none := rfl
    have hprim : ∀ p ∈ primariesOf idx, p ≠ [] := by
      intro p hp
      unfold primariesOf at hp
      rw [List.mem_filterMap] at hp
      obtain ⟨e, he, hep⟩ := hp
      intro hp0
      exact h e he (hp0 ▸ hep)
    have hT3 : getCloseMatches1 (normalize_arabic [])
        (primariesOf idx) cut60 = none :=
      getCloseMatches1_nil_query _ _ hprim (by decide)
    simp only [find_med_in_text, hT1, hT2, hT3]
  · intro qn e h
    simp [tier1HitB, h]

/-- Witness for C1: a well-formed one-entry index and the empty query give
no-match; the degenerate empty-norm entry is not selected by Tier 1 nor by
the fuzzy candidate search for a concrete non-empty token. -/
theorem claim_C1_witness :
    (∀ e ∈ [Entry.mk (strCP "بنادول") [strCP "بنادول"] (JVal.jobj [])],
        e.norms.head? ≠ some []) ∧
    find_med_in_text []
        [Entry.mk (strCP "بنادول") [strCP "بنادول"] (JVal.jobj [])] =
      some FindRes.nomatch ∧
    tier1HitB (strCP "ا") (Entry.mk (strCP "x") [[]] JVal.jnull) = false ∧
    getCloseMatches1 (strCP "ا") [[]] cut75 ≠ some [] := by
  refine ⟨by decide, claim_C1.1 _ (by decide), ?_, ?_⟩
  · exact claim_C1.2.1 _ _ rfl
  · exact claim_C1.2.2 _ _ _ (by decide) (by decide)

/-- C2 counterexample: the record set `{"!!!": {}}` builds an index entry
whose `norms` is `[""]` — the empty string is an element of `norms`, so
`norms` is not free of empty strings. -/
theorem claim_C2_counterexample :
    ∃ e : Entry, build_med_index_from_dict [(strCP "!!!", JVal.jobj [])] =
        some [e] ∧ ([] : List Nat) ∈ e.norms :=
  ⟨⟨strCP "!!!", [[]], JVal.jobj []⟩, rfl, by decide⟩

/-- C2 (amended): every index entry the builder produces comes from a
source record whose key it carries, and its `norms` is exactly
`list(dict.fromkeys([normalized key] + normalized aliases))`: the
normalized key first, followed by the normalized aliases of that record's
payload in their original order, de-duplicated preserving first
occurrence.  Hence `norms` has no duplicates, starts with the normalized
key, is an order-preserving subsequence of the key-then-aliases sequence,
and holds exactly that sequence's values.  (It may contain the empty
string when the key or an alias normalizes to empty — the source never
filters empty norms out.) -/
theorem claim_C2 (meds : List (List Nat × JVal)) (idx : List Entry)
    (hb : build_med_index_from_dict meds = some idx) :
    ∀ e ∈ idx, ∃ kv ∈ meds, e.key = kv.1 ∧
      ∃ ans : List (List Nat), aliasNormsOf kv.2 = some ans ∧
        e.norms = dedupFirst (normalize_arabic kv.1 :: ans) ∧
        e.norms.Nodup ∧
        e.norms.head? = some (normalize_arabic kv.1) ∧
        e.norms.Sublist (normalize_arabic kv.1 :: ans) ∧
        ∀ n : List Nat, n ∈ e.norms ↔ n ∈ normalize_arabic kv.1 :: ans := by
  intro e he
  obtain ⟨kv, hkv, hbe⟩ := mapMO_mem _ meds idx hb e he
  obtain ⟨hkey, _, ans, hans, hnorms⟩ := buildEntry_norms kv.1 kv.2 e hbe
  refine ⟨kv, hkv, hkey, ans, hans, hnorms, ?_, ?_, ?_, ?_⟩
  · rw [hnorms]; exact dedupFirst_nodup _
  · rw [hnorms]; exact dedupFirst_cons_head _ _
  · rw [hnorms]; exact dedupFirst_sublist _
  · intro n; rw [hnorms]; exact mem_dedupFirst _ n

/-- Witness for C2: a record whose alias list repeats the key builds the
entry with norms equal to the de-duplicated key-then-aliases sequence. -/
theorem claim_C2_witness :
    ∃ kv ∈ [(strCP "دواء", JVal.jobj [(kAliases,
        JVal.jarr [JVal.jstr (strCP "دواء"), JVal.jstr (strCP "panadol")])])],
      (Entry.mk (strCP "دواء") [strCP "دواء", strCP "panadol"]
        (JVal.jobj [(kAliases, JVal.jarr
          [JVal.jstr (strCP "دواء"),
            JVal.jstr (strCP "panadol")])])).key = kv.1 ∧
      ∃ ans : List (List Nat), aliasNormsOf kv.2 = some ans ∧
        (Entry.mk (strCP "دواء") [strCP "دواء", strCP "panadol"]
          (JVal.jobj [(kAliases, JVal.jarr
            [JVal.jstr (strCP "دواء"),
              JVal.jstr (strCP "panadol")])])).norms =
          dedupFirst (normalize_arabic kv.1 :: ans) ∧
        (Entry.mk (strCP "دواء") [strCP "دواء", strCP "panadol"]
          (JVal.jobj [(kAliases, JVal.jarr
            [JVal.jstr (strCP "دواء"),
              JVal.jstr (strCP "panadol")])])).norms.Nodup ∧
        (Entry.mk (strCP "دواء") [strCP "دواء", strCP "panadol"]
          (JVal.jobj [(kAliases, JVal.jarr
            [JVal.jstr (strCP "دواء"),
              JVal.jstr (strCP "panadol")])])).norms.head? =
          some (normalize_arabic kv.1) ∧
        List.Sublist
          (Entry.mk (strCP "دواء") [strCP "دواء", strCP "panadol"]
            (JVal.jobj [(kAliases, JVal.jarr
              [JVal.jstr (strCP "دواء"),
                JVal.jstr (strCP "panadol")])])).norms
          (normalize_arabic kv.1 :: ans) ∧
        ∀ n : List Nat,
          n ∈ (Entry.mk (strCP "دواء") [strCP "دواء", strCP "panadol"]
            (JVal.jobj [(kAliases, JVal.jarr
              [JVal.jstr (strCP "دواء"),
                JVal.jstr (strCP "panadol")])])).norms ↔
          n ∈ normalize_arabic kv.1 :: ans :=
  claim_C2
    [(strCP "دواء", JVal.jobj [(kAliases,
      JVal.jarr [JVal.jstr (strCP "دواء"), JVal.jstr (strCP "panadol")])])]
    _ rfl _ (List.mem_cons_self _ _)

/-- C3: Tier 1 returns the key and payload of the first entry (index
order) having a non-empty norm that is a substring of the normalized
query: any entry before it fails the Tier-1 test, and the scan stops at
the first success, so of two entries carrying the same normalized alias
the earlier one is always returned; the function is pure, so repeated
calls on the same inputs agree. -/
theorem claim_C3 (q : List Nat) (pre : List Entry) (e : Entry)
    (post : List Entry)
    (hpre : ∀ e' ∈ pre, tier1HitB (normalize_arabic q) e' = false)
    (he : tier1HitB (normalize_arabic q) e = true) :
    find_med_in_text q (pre ++ e :: post) =
      some (FindRes.found e.key e.raw) := by
  have h1 := scanT1_first (normalize_arabic q) pre e post hpre he
  simp only [find_med_in_text, h1]

/-- Witness for C3: the spec's substring example, over an index with a
second entry carrying the exact same normalized alias — the earlier entry
is returned. -/
theorem claim_C3_witness :
    tier1HitB (normalize_arabic (strCP "خذ أسبرين الآن"))
        (Entry.mk (strCP "أسبرين") [strCP "اسبرين"] (JVal.jobj [])) = true ∧
    find_med_in_text (strCP "خذ أسبرين الآن")
        [Entry.mk (strCP "أسبرين") [strCP "اسبرين"] (JVal.jobj []),
          Entry.mk (strCP "مرادف") [strCP "اسبرين"] (JVal.jobj [])] =
      some (FindRes.found (strCP "أسبرين") (JVal.jobj [])) := by
  refine ⟨by decide, ?_⟩
  exact claim_C3 (strCP "خذ أسبرين الآن") []
    (Entry.mk (strCP "أسبرين") [strCP "اسبرين"] (JVal.jobj []))
    [Entry.mk (strCP "مرادف") [strCP "اسبرين"] (JVal.jobj [])]
    (by simp) (by decide)

/-- C4: when Tier 1 finds nothing, the normalized query is split on
whitespace and the tokens are scanned left to right; for the first token
whose best close match over the de-duplicated union of all entries' norms
clears the 0.75 cutoff, the first entry owning that matched norm is
returned immediately — the hypotheses constrain only the earlier tokens,
so the remaining tokens are never consulted. -/
theorem claim_C4 (q : List Nat) (idx : List Entry)
    (tpre : List (List Nat)) (t : List Nat) (tpost : List (List Nat))
    (m : List Nat) (pre : List Entry) (e : Entry) (post : List Entry)
    (hT1 : ∀ e' ∈ idx, tier1HitB (normalize_arabic q) e' = false)
    (htoks : pySplit (normalize_arabic q) = tpre ++ t :: tpost)
    (hpre : ∀ t' ∈ tpre, getCloseMatches1 t' (poolOf idx) cut75 = none)
    (hbest : getCloseMatches1 t (poolOf idx) cut75 = some m)
    (hidx : idx = pre ++ e :: post)
    (hepre : ∀ e' ∈ pre, m ∉ e'.norms)
    (hown : m ∈ e.norms) :
    find_med_in_text q idx = some (FindRes.found e.key e.raw) := by
  have h1 : scanT1 (normalize_arabic q) idx = none :=
    scanT1_eq_none _ idx hT1
  have hosc : ownerScan m idx = some (e.key, e.raw) := by
    rw [hidx]; exact ownerScan_first m pre e post hepre hown
  have h2 : scanT2 (poolOf idx) idx (pySplit (normalize_arabic q)) =
      some (e.key, e.raw) := by
    rw [htoks]
    exact scanT2_first (poolOf idx) idx tpre t tpost m e.key e.raw hpre
      hbest hosc
  simp only [find_med_in_text, h1, h2]

/-- Witness for C4: the one-character-off token `بندول` inside a longer
sentence resolves to the entry `بنادول` through the token tier. -/
theorem claim_C4_witness :
    getCloseMatches1 (strCP "بندول")
        (poolOf [Entry.mk (strCP "بنادول") [strCP "بنادول"] (JVal.jobj [])])
        cut75 = some (strCP "بنادول") ∧
    find_med_in_text (strCP "خذ بندول الان")
        [Entry.mk (strCP "بنادول") [strCP "بنادول"] (JVal.jobj [])] =
      some (FindRes.found (strCP "بنادول") (JVal.jobj [])) := by
  refine ⟨by decide, ?_⟩
  exact claim_C4 (strCP "خذ بندول الان")
    [Entry.mk (strCP "بنادول") [strCP "بنادول"] (JVal.jobj [])]
    [strCP "خذ"] (strCP "بندول") [strCP "الان"] (strCP "بنادول")
    [] (Entry.mk (strCP "بنادول") [strCP "بنادول"] (JVal.jobj [])) []
    (by decide) (by decide) (by decide) (by decide) rfl (by simp)
    (by decide)

/-- C5: a close-match result always comes from the candidate list and
clears the cutoff; when Tiers 1 and 2 both find nothing, the full
normalized query is fuzzy-compared with cutoff 0.6 against the primary
norms only, and the first entry whose primary norm equals the winning
candidate is returned; when no tier succeeds the result is exactly
no-match. -/
theorem claim_C5 :
    (∀ (w m : List Nat) (poss : List (List Nat)) (cut : Frac),
        getCloseMatches1 w poss cut = some m →
        m ∈ poss ∧ cutoffOK m w cut = true) ∧
    (∀ (q : List Nat) (idx : List Entry) (m : List Nat)
        (pre : List Entry) (e : Entry) (post : List Entry),
        (∀ e' ∈ idx, tier1HitB (normalize_arabic q) e' = false) →
        (∀ t ∈ pySplit (normalize_arabic q),
            getCloseMatches1 t (poolOf idx) cut75 = none) →
        getCloseMatches1 (normalize_arabic q) (primariesOf idx) cut60 =
          some m →
        idx = pre ++ e :: post →
        (∀ e' ∈ pre, e'.norms ≠ [] ∧ e'.norms.head? ≠ some m) →
        e.norms.head? = some m →
        find_med_in_text q idx = some (FindRes.found e.key e.raw)) ∧
    (∀ (q : List Nat) (idx : List Entry),
        (∀ e' ∈ idx, tier1HitB (normalize_arabic q) e' = false) →
        (∀ t ∈ pySplit (normalize_arabic q),
            getCloseMatches1 t (poolOf idx) cut75 = none) →
        getCloseMatches1 (normalize_arabic q) (primariesOf idx) cut60 =
          none →
        find_med_in_text q idx = some FindRes.nomatch) := by
  refine ⟨fun w m poss cut h => getCloseMatches1_mem w m poss cut h,
    ?_, ?_⟩
  · intro q idx m pre e post hT1 hT2 hT3 hidx hpre he
    have h1 : scanT1 (normalize_arabic q) idx = none :=
      scanT1_eq_none _ idx hT1
    have h2 : scanT2 (poolOf idx) idx (pySplit (normalize_arabic q)) =
        none := scanT2_eq_none _ idx _ hT2
    have h3 : scanT3 m idx = some (FindRes.found e.key e.raw) := by
      rw [hidx]; exact scanT3_first m pre e post hpre he
    simp only [find_med_in_text, h1, h2, hT3, h3]
  · intro q idx hT1 hT2 hT3
    have h1 : scanT1 (normalize_arabic q) idx = none :=
      scanT1_eq_none _ idx hT1
    have h2 : scanT2 (poolOf idx) idx (pySplit (normalize_arabic q)) =
        none := scanT2_eq_none _ idx _ hT2
    simp only [find_med_in_text, h1, h2, hT3]

/-- Witness for C5: a two-token query where each token individually stays
under 0.75 but the whole string clears 0.6 against the primary norm is
matched in Tier 3; a completely unrelated query falls through every tier
to no-match. -/
theorem claim_C5_witness :
    find_med_in_text (strCP "ابو الي")
        [Entry.mk (strCP "ابو علي") [strCP "ابو علي"] (JVal.jobj [])] =
      some (FindRes.found (strCP "ابو علي") (JVal.jobj [])) ∧
    find_med_in_text (strCP "قطة")
        [Entry.mk (strCP "ابو علي") [strCP "ابو علي"] (JVal.jobj [])] =
      some FindRes.nomatch := by
  refine ⟨?_, ?_⟩
  · exact claim_C5.2.1 (strCP "ابو الي")
      [Entry.mk (strCP "ابو علي") [strCP "ابو علي"] (JVal.jobj [])]
      (strCP "ابو علي") []
      (Entry.mk (strCP "ابو علي") [strCP "ابو علي"] (JVal.jobj [])) []
      (by decide) (by decide) (by decide) rfl (by simp) (by decide)
  · exact claim_C5.2.2 (strCP "قطة")
      [Entry.mk (strCP "ابو علي") [strCP "ابو علي"] (JVal.jobj [])]
      (by decide) (by decide) (by decide)

/-- C8: normalization is total on strings — applied to a string value it
returns a string and never hits the raising branch; every index entry the
builder produces has non-empty norms; and over any index whose entries all
have non-empty norms — in particular any built index — the matcher never
raises for any query: the only unguarded operation, the Tier-3
`norms[0]`, is covered by the invariant. -/
theorem claim_C8 :
    (∀ s : List Nat, normalizeJ (JVal.jstr s) = some (normalize_arabic s)) ∧
    (∀ (meds : List (List Nat × JVal)) (idx : List Entry),
        build_med_index_from_dict meds = some idx →
        ∀ e ∈ idx, e.norms ≠ []) ∧
    (∀ (q : List Nat) (idx : List Entry), (∀ e ∈ idx, e.norms ≠ []) →
        find_med_in_text q idx ≠ none) := by
  refine ⟨fun s => rfl, ?_, ?_⟩
  · intro meds idx hb e he
    obtain ⟨kv, _, hbe⟩ := mapMO_mem _ meds idx hb e he
    obtain ⟨ns, _, _, hnorms⟩ := buildEntry_shape kv.1 kv.2 e hbe
    rw [hnorms]
    exact dedupFirst_cons_ne_nil _ _
  · intro q idx hinv
    cases h1 : scanT1 (normalize_arabic q) idx with
    | some kr => simp [find_med_in_text, h1]
    | none =>
        cases h2 : scanT2 (poolOf idx) idx (pySplit (normalize_arabic q))
          with
        | some kr => simp [find_med_in_text, h1, h2]
        | none =>
            cases h3 : getCloseMatches1 (normalize_arabic q)
                (primariesOf idx) cut60 with
            | none => simp [find_med_in_text, h1, h2, h3]
            | some m =>
                simp only [find_med_in_text, h1, h2, h3]
                exact scanT3_total m idx hinv

/-- Witness for C8: the entries built from a concrete record set have
non-empty norms, and the matcher returns a value (no exception) on a
query unrelated to that index. -/
theorem claim_C8_witness :
    (∀ e ∈ [Entry.mk (strCP "بنادول") [strCP "بنادول"] (JVal.jobj [])],
        e.norms ≠ []) ∧
    find_med_in_text (strCP "سلام")
      [Entry.mk (strCP "بنادول") [strCP "بنادول"] (JVal.jobj [])] ≠
      none := by
  refine ⟨?_, ?_⟩
  · exact claim_C8.2.1 [(strCP "بنادول", JVal.jobj [])] _ rfl
  · exact claim_C8.2.2 (strCP "سلام") _ (by decide)

/-- C9: the loader's mapping semantics.  Inserting under an existing key
overwrites that key's payload and no other (last-write-wins); a list
element that is not a dict is skipped, leaving the accumulated mapping
unchanged; so is a multi-key dict with no derivable name; and the three
accepted input shapes each yield the expected mapping, with a later
same-name list element overwriting the earlier one. -/
theorem claim_C9 :
    (∀ (m : List (JKey × JVal)) (k : JKey) (v : JVal),
        kget k (dictInsert k v m) = some v ∧
        ∀ k' : JKey, k' ≠ k → kget k' (dictInsert k v m) = kget k' m) ∧
    (∀ (meds : List (JKey × JVal)) (v : JVal), isObjOpt v = none →
        listStep meds v = some meds) ∧
    (∀ (meds : List (JKey × JVal)) (fields : List (List Nat × JVal)),
        nameChain fields = none → fields.length ≠ 1 →
        listStep meds (JVal.jobj fields) = some meds) ∧
    load_medications_data (JVal.jobj [(strCP "a", JVal.jstr (strCP "da"))]) =
      some [(JKey.kstr (strCP "a"),
        JVal.jobj [(descKey, JVal.jstr (strCP "da"))])] ∧
    load_medications_data (JVal.jarr [JVal.jobj
        [(nameK1, JVal.jstr (strCP "a")), (strCP "d", JVal.jnull)]]) =
      some [(JKey.kstr (strCP "a"), JVal.jobj [(strCP "d", JVal.jnull)])] ∧
    load_medications_data (JVal.jarr [JVal.jobj
        [(strCP "a", JVal.jobj [(strCP "d", JVal.jnull)])]]) =
      some [(JKey.kstr (strCP "a"), JVal.jobj [(strCP "d", JVal.jnull)])] ∧
    load_medications_data (JVal.jarr [
        JVal.jobj [(strCP "a", JVal.jstr (strCP "v1"))],
        JVal.jobj [(strCP "a", JVal.jstr (strCP "v2"))]]) =
      some [(JKey.kstr (strCP "a"),
        JVal.jobj [(descKey, JVal.jstr (strCP "v2"))])] := by
  refine ⟨fun m k v => ⟨kget_dictInsert_self k v m,
    fun k' h => kget_dictInsert_ne k k' v h m⟩, ?_, ?_, rfl, rfl, rfl, rfl⟩
  · intro meds v h
    cases v with
    | jobj f => cases h
    | jstr s => rfl
    | jarr l => rfl
    | jnum n => rfl
    | jbool b => rfl
    | jnull => rfl
  · intro meds fields hname hlen
    unfold listStep
    dsimp only
    rw [hname]
    cases fields with
    | nil => rfl
    | cons kv rest =>
        cases rest with
        | nil => exact absurd rfl hlen
        | cons kv2 rest2 =>
            obtain ⟨nm0, v0⟩ := kv
            cases v0 <;> rfl

/-- Witness for C9: overwriting a present key changes exactly that key's
payload; a number element and a two-key nameless dict element are
skipped. -/
theorem claim_C9_witness :
    kget (JKey.kstr (strCP "a"))
        (dictInsert (JKey.kstr (strCP "a")) (JVal.jstr (strCP "new"))
          [(JKey.kstr (strCP "a"), JVal.jstr (strCP "old")),
            (JKey.kstr (strCP "b"), JVal.jnull)]) =
      some (JVal.jstr (strCP "new")) ∧
    kget (JKey.kstr (strCP "b"))
        (dictInsert (JKey.kstr (strCP "a")) (JVal.jstr (strCP "new"))
          [(JKey.kstr (strCP "a"), JVal.jstr (strCP "old")),
            (JKey.kstr (strCP "b"), JVal.jnull)]) =
      kget (JKey.kstr (strCP "b"))
        [(JKey.kstr (strCP "a"), JVal.jstr (strCP "old")),
          (JKey.kstr (strCP "b"), JVal.jnull)] ∧
    listStep [] (JVal.jnum 5) = some [] ∧
    listStep [] (JVal.jobj [(strCP "x", JVal.jnull),
        (strCP "y", JVal.jnull)]) = some [] := by
  refine ⟨(claim_C9.1 _ _ _).1, (claim_C9.1 _ _ _).2 _ (by decide),
    claim_C9.2.1 _ _ rfl, claim_C9.2.2.1 _ _ rfl (by decide)⟩

/-! ## Loader payload lemmas for C10 -/

theorem dictStep_preserves_obj (meds : List (JKey × JVal))
    (kv : List Nat × JVal) (hm : ∀ x ∈ meds, isObjB x.2 = true) :
    ∀ x ∈ dictStep meds kv, isObjB x.2 = true := by
  obtain ⟨k0, v0⟩ := kv
  intro x hx
  unfold dictStep at hx
  rcases mem_dictInsert _ _ _ _ hx with h | h
  · rw [h]; cases v0 <;> rfl
  · exact hm x h

theorem dictFold_obj :
    ∀ (entries : List (List Nat × JVal)) (acc : List (JKey × JVal)),
      (∀ x ∈ acc, isObjB x.2 = true) →
      ∀ x ∈ entries.foldl dictStep acc, isObjB x.2 = true := by
  intro entries
  induction entries with
  | nil => intro acc hacc; exact hacc
  | cons kv rest ih =>
      intro acc hacc
      simp only [List.foldl_cons]
      exact ih (dictStep acc kv) (dictStep_preserves_obj acc kv hacc)

theorem listStep_preserves_obj (meds : List (JKey × JVal)) (item : JVal)
    (meds' : List (JKey × JVal)) (h : listStep meds item = some meds')
    (hm : ∀ x ∈ meds, isObjB x.2 = true) :
    ∀ x ∈ meds', isObjB x.2 = true := by
  cases item with
  | jobj fields =>
      unfold listStep at h
      dsimp only at h
      cases hn : nameChain fields with
      | some nv =>
          rw [hn] at h
          dsimp only at h
          cases hk : toKey nv with
          | none => rw [hk] at h; cases h
          | some k =>
              rw [hk] at h
              injection h with h
              subst h
              intro x hx
              rcases mem_dictInsert _ _ _ _ hx with h1 | h1
              · rw [h1]; rfl
              · exact hm x h1
      | none =>
          rw [hn] at h
          dsimp only at h
          cases fields with
          | nil =>
              injection h with h
              subst h
              exact hm
          | cons kv0 rest =>
              cases rest with
              | nil =>
                  obtain ⟨nm, v0⟩ := kv0
                  cases v0 with
                  | jobj g =>
                      injection h with h
                      subst h
                      intro x hx
                      rcases mem_dictInsert _ _ _ _ hx with h1 | h1
                      · rw [h1]; rfl
                      · exact hm x h1
                  | jstr s =>
                      injection h with h
                      subst h
                      intro x hx
                      rcases mem_dictInsert _ _ _ _ hx with h1 | h1
                      · rw [h1]; rfl
                      · exact hm x h1
                  | jarr l =>
                      injection h with h
                      subst h
                      intro x hx
                      rcases mem_dictInsert _ _ _ _ hx with h1 | h1
                      · rw [h1]; rfl
                      · exact hm x h1
                  | jnum n =>
                      injection h with h
                      subst h
                      intro x hx
                      rcases mem_dictInsert _ _ _ _ hx with h1 | h1
                      · rw [h1]; rfl
                      · exact hm x h1
                  | jbool b =>
                      injection h with h
                      subst h
                      intro x hx
                      rcases mem_dictInsert _ _ _ _ hx with h1 | h1
                      · rw [h1]; rfl
                      · exact hm x h1
                  | jnull =>
                      injection h with h
                      subst h
                      intro x hx
                      rcases mem_dictInsert _ _ _ _ hx with h1 | h1
                      · rw [h1]; rfl
                      · exact hm x h1
              | cons kv1 rest2 =>
                  obtain ⟨nm0, v0⟩ := kv0
                  cases v0 <;> (injection h with h; subst h; exact hm)
  | jstr s =>
      unfold listStep at h
      dsimp only at h
      injection h with h
      subst h
      exact hm
  | jarr l =>
      unfold listStep at h
      dsimp only at h
      injection h with h
      subst h
      exact hm
  | jnum n =>
      unfold listStep at h
      dsimp only at h
      injection h with h
      subst h
      exact hm
  | jbool b =>
      unfold listStep at h
      dsimp only at h
      injection h with h
      subst h
      exact hm
  | jnull =>
      unfold listStep at h
      dsimp only at h
      injection h with h
      subst h
      exact hm

theorem loader_obj (data : JVal) (res : List (JKey × JVal))
    (h : load_medications_data data = some res) :
    ∀ x ∈ res, isObjB x.2 = true := by
  cases data with
  | jobj entries =>
      unfold load_medications_data at h
      injection h with h
      subst h
      exact dictFold_obj entries [] (by simp)
  | jarr items =>
      unfold load_medications_data at h
      exact foldlO_induction listStep (fun m => ∀ x ∈ m, isObjB x.2 = true)
        (fun s it s' hs hstep => listStep_preserves_obj s it s' hstep hs)
        items [] res (by simp) h
  | jstr s =>
      unfold load_medications_data at h
      injection h with h
      subst h
      intro x hx
      simp at hx
  | jnum n =>
      unfold load_medications_data at h
      injection h with h
      subst h
      intro x hx
      simp at hx
  | jbool b =>
      unfold load_medications_data at h
      injection h with h
      subst h
      intro x hx
      simp at hx
  | jnull =>
      unfold load_medications_data at h
      injection h with h
      subst h
      intro x hx
      simp at hx

theorem stringKeyed_mem :
    ∀ (res : List (JKey × JVal)) (meds : List (List Nat × JVal)),
      stringKeyed res = some meds →
      ∀ kv ∈ meds, (JKey.kstr kv.1, kv.2) ∈ res := by
  intro res
  induction res with
  | nil =>
      intro meds h kv hkv
      simp only [stringKeyed, Option.some.injEq] at h
      subst h
      simp at hkv
  | cons p rest ih =>
      intro meds h kv hkv
      obtain ⟨k0, v0⟩ := p
      cases k0 with
      | kstr s =>
          simp only [stringKeyed] at h
          cases hr : stringKeyed rest with
          | none => rw [hr] at h; cases h
          | some r' =>
              rw [hr] at h
              simp only [Option.map_some', Option.some.injEq] at h
              subst h
              rcases List.mem_cons.mp hkv with h1 | h2
              · subst h1; exact List.mem_cons_self _ _
              · exact List.mem_cons_of_mem _ (ih r' hr kv h2)
      | knum n =>
          simp only [stringKeyed] at h
          cases h
      | kbool b =>
          simp only [stringKeyed] at h
          cases h

/-! ## Matcher result inversion for C10 -/

theorem scanT1_inv (qn : List Nat) :
    ∀ (idx : List Entry) (k : List Nat) (r : JVal),
      scanT1 qn idx = some (k, r) → ∃ e ∈ idx, e.key = k ∧ e.raw = r := by
  intro idx
  induction idx with
  | nil => intro k r h; cases h
  | cons e rest ih =>
      intro k r h
      simp only [scanT1] at h
      split at h
      · injection h with h
        rw [Prod.mk.injEq] at h
        exact ⟨e, List.mem_cons_self _ _, h.1, h.2⟩
      · obtain ⟨e', he', hk, hr⟩ := ih k r h
        exact ⟨e', List.mem_cons_of_mem _ he', hk, hr⟩

theorem ownerScan_inv (m : List Nat) :
    ∀ (idx : List Entry) (k : List Nat) (r : JVal),
      ownerScan m idx = some (k, r) → ∃ e ∈ idx, e.key = k ∧ e.raw = r := by
  intro idx
  induction idx with
  | nil => intro k r h; cases h
  | cons e rest ih =>
      intro k r h
      simp only [ownerScan] at h
      split at h
      · injection h with h
        rw [Prod.mk.injEq] at h
        exact ⟨e, List.mem_cons_self _ _, h.1, h.2⟩
      · obtain ⟨e', he', hk, hr⟩ := ih k r h
        exact ⟨e', List.mem_cons_of_mem _ he', hk, hr⟩

theorem scanT2_inv (pool : List (List Nat)) (idx : List Entry) :
    ∀ (toks : List (List Nat)) (k : List Nat) (r : JVal),
      scanT2 pool idx toks = some (k, r) →
      ∃ e ∈ idx, e.key = k ∧ e.raw = r := by
  intro toks
  induction toks with
  | nil => intro k r h; cases h
  | cons t ts ih =>
      intro k r h
      simp only [scanT2] at h
      cases hg : getCloseMatches1 t pool cut75 with
      | none => rw [hg] at h; exact ih k r h
      | some m =>
          rw [hg] at h
          dsimp only at h
          cases ho : ownerScan m idx with
          | none => rw [ho] at h; exact ih k r h
          | some kr =>
              rw [ho] at h
              injection h with h
              subst h
              exact ownerScan_inv m idx k r ho

theorem scanT3_inv (m : List Nat) :
    ∀ (idx : List Entry) (k : List Nat) (r : JVal),
      scanT3 m idx = some (FindRes.found k r) →
      ∃ e ∈ idx, e.key = k ∧ e.raw = r := by
  intro idx
  induction idx with
  | nil =>
      intro k r h
      injection h with h
      cases h
  | cons e rest ih =>
      intro k r h
      simp only [scanT3] at h
      cases hn : e.norms with
      | nil => rw [hn] at h; cases h
      | cons n0 ns =>
          rw [hn] at h
          dsimp only at h
          split at h
          · injection h with h
            injection h with h1 h2
            exact ⟨e, List.mem_cons_self _ _, h1, h2⟩
          · obtain ⟨e', he', hk, hr⟩ := ih k r h
            exact ⟨e', List.mem_cons_of_mem _ he', hk, hr⟩

theorem find_raw_mem (q : List Nat) (idx : List Entry) (k : List Nat)
    (r : JVal) (h : find_med_in_text q idx = some (FindRes.found k r)) :
    ∃ e ∈ idx, e.key = k ∧ e.raw = r := by
  simp only [find_med_in_text] at h
  cases h1 : scanT1 (normalize_arabic q) idx with
  | some kr =>
      rw [h1] at h
      dsimp only at h
      injection h with h
      injection h with hk hr
      obtain ⟨e, he, hek, her⟩ :=
        scanT1_inv (normalize_arabic q) idx kr.1 kr.2 h1
      exact ⟨e, he, hek.trans hk, her.trans hr⟩
  | none =>
      rw [h1] at h
      dsimp only at h
      cases h2 : scanT2 (poolOf idx) idx (pySplit (normalize_arabic q)) with
      | some kr =>
          rw [h2] at h
          dsimp only at h
          injection h with h
          injection h with hk hr
          obtain ⟨e, he, hek, her⟩ :=
            scanT2_inv (poolOf idx) idx (pySplit (normalize_arabic q))
              kr.1 kr.2 h2
          exact ⟨e, he, hek.trans hk, her.trans hr⟩
      | none =>
          rw [h2] at h
          dsimp only at h
          cases h3 : getCloseMatches1 (normalize_arabic q)
              (primariesOf idx) cut60 with
          | none =>
              rw [h3] at h
              injection h with h
              cases h
          | some m =>
              rw [h3] at h
              exact scanT3_inv m idx k r h

/-- C10: every payload in a loader result is an object — a string payload
in the dict shape or the one-key list shape is wrapped as a description
object, any other non-dict payload in the dict shape as a raw object — and
consequently the payload of any match found over an index built from a
loader result is an object. -/
theorem claim_C10 :
    (∀ (data : JVal) (res : List (JKey × JVal)),
        load_medications_data data = some res →
        ∀ kv ∈ res, isObjB kv.2 = true) ∧
    (∀ (data : JVal) (res : List (JKey × JVal))
        (meds : List (List Nat × JVal)) (idx : List Entry)
        (q k : List Nat) (r : JVal),
        load_medications_data data = some res →
        stringKeyed res = some meds →
        build_med_index_from_dict meds = some idx →
        find_med_in_text q idx = some (FindRes.found k r) →
        isObjB r = true) := by
  refine ⟨fun data res h => loader_obj data res h, ?_⟩
  intro data res meds idx q k r hload hsk hb hfind
  obtain ⟨e, heidx, _, her⟩ := find_raw_mem q idx k r hfind
  obtain ⟨kv, hkv, hbe⟩ := mapMO_mem _ meds idx hb e heidx
  obtain ⟨ns, _, hraw, _⟩ := buildEntry_shape kv.1 kv.2 e hbe
  have hmem := stringKeyed_mem res meds hsk kv hkv
  have hobj := loader_obj data res hload _ hmem
  rw [← her, hraw]
  exact hobj

/-- Witness for C10: the full pipeline on a one-record dict input — load,
key extraction, index build, then a Tier-1 match — returns an object
payload. -/
theorem claim_C10_witness :
    isObjB (JVal.jobj [(descKey, JVal.jstr (strCP "مسكن"))]) = true ∧
    isObjB ((JKey.kstr (strCP "بنادول"),
        JVal.jobj [(descKey, JVal.jstr (strCP "مسكن"))]) :
        JKey × JVal).2 = true := by
  refine ⟨?_, ?_⟩
  · exact claim_C10.2 (JVal.jobj [(strCP "بنادول", JVal.jstr (strCP "مسكن"))])
      [(JKey.kstr (strCP "بنادول"),
        JVal.jobj [(descKey, JVal.jstr (strCP "مسكن"))])]
      [(strCP "بنادول", JVal.jobj [(descKey, JVal.jstr (strCP "مسكن"))])]
      [⟨strCP "بنادول", [strCP "بنادول"],
        JVal.jobj [(descKey, JVal.jstr (strCP "مسكن"))]⟩]
      (strCP "بنادول") (strCP "بنادول")
      (JVal.jobj [(descKey, JVal.jstr (strCP "مسكن"))])
      rfl rfl rfl rfl
  · exact claim_C10.1 (JVal.jobj [(strCP "بنادول", JVal.jstr (strCP "مسكن"))])
      [(JKey.kstr (strCP "بنادول"),
        JVal.jobj [(descKey, JVal.jstr (strCP "مسكن"))])]
      rfl _ (List.mem_cons_self _ _)

end VoiceBot
